import Mathlib

/-!
# Zone timing of the runtime (`src/timing.h`)

A shallow embedding of the zone lifecycle engine declared in `timing.h`:
the aggregated-counts back-end (`_jl_timing_counts_*`), the per-context
stack of zone records (`_jl_timing_block_ctor`, `_jl_timing_block_destroy`),
the suspend guard (`_jl_timing_suspend_*`) and the `JL_TIMING` entry point.

Conventions of the embedding.

* The build is the one with `USE_TIMING_COUNTS` defined, so that the
  `_COUNTS_*` wrappers expand to the `_jl_timing_counts_*` functions.  The two
  other switches the header tests, `JL_DEBUG_BUILD` and `USE_TRACY`, are the
  fields of `Build`; a function whose code depends on them takes the build as
  its first argument.
* `uint64_t` values are natural numbers; every `+` and `-` of the header on
  them is `add64` / `sub64`, which reduce modulo `2 ^ 64`.
* A pointer to a zone record is an address (`Nat`), `NULL` is `0`, and the
  records live in `State.mem`.  `State.timing_stack` is
  `jl_current_task->ptls->timing_stack` of the one execution context.
* `cycleclock()` is an input: every operation takes the reading `t`.
* A failed `assert` is an `Except.error`; asserts exist in debug builds only.
-/

namespace Timing

/-! ## Machine arithmetic -/

/-- Addition of two `uint64_t` values. -/
def add64 (a b : Nat) : Nat := (a + b) % 2 ^ 64

/-- Subtraction of two `uint64_t` values. -/
def sub64 (a b : Nat) : Nat := (a + (2 ^ 64 - b % 2 ^ 64)) % 2 ^ 64

/-! ## Memory -/

/-- A write to memory: the map `f` with the cell `k` set to `v`. -/
def store {κ α : Type} [DecidableEq κ] (f : κ → α) (k : κ) (v : α) : κ → α :=
  fun x => if x = k then v else f x

/-! ## Build switches -/

/-- The preprocessor switches of the header that change the code below. -/
structure Build where
  JL_DEBUG_BUILD : Bool
  USE_TRACY : Bool
deriving DecidableEq, Repr

/-! ## Owner registry -/

/-- The enumeration `jl_timing_owners`, one enumerator `JL_TIMING_name` per
entry `X(name)` of `JL_TIMING_OWNERS`, in the order of the list. -/
inductive jl_timing_owners where
  | JL_TIMING_ROOT
  | JL_TIMING_GC
  | JL_TIMING_LOWERING
  | JL_TIMING_PARSING
  | JL_TIMING_INFERENCE
  | JL_TIMING_CODEGEN
  | JL_TIMING_METHOD_LOOKUP_SLOW
  | JL_TIMING_METHOD_LOOKUP_FAST
  | JL_TIMING_LLVM_OPT
  | JL_TIMING_LLVM_MODULE_FINISH
  | JL_TIMING_METHOD_MATCH
  | JL_TIMING_TYPE_CACHE_LOOKUP
  | JL_TIMING_TYPE_CACHE_INSERT
  | JL_TIMING_STAGED_FUNCTION
  | JL_TIMING_MACRO_INVOCATION
  | JL_TIMING_AST_COMPRESS
  | JL_TIMING_AST_UNCOMPRESS
  | JL_TIMING_SYSIMG_LOAD
  | JL_TIMING_SYSIMG_DUMP
  | JL_TIMING_NATIVE_DUMP
  | JL_TIMING_ADD_METHOD
  | JL_TIMING_LOAD_MODULE
  | JL_TIMING_SAVE_MODULE
  | JL_TIMING_INIT_MODULE
deriving DecidableEq, Repr

/-- The value of an enumerator: C numbers the enumerators of an `enum`
without initialisers `0, 1, 2, ...` in declaration order. -/
def jl_timing_owners.val : jl_timing_owners → Nat
  | .JL_TIMING_ROOT => 0
  | .JL_TIMING_GC => 1
  | .JL_TIMING_LOWERING => 2
  | .JL_TIMING_PARSING => 3
  | .JL_TIMING_INFERENCE => 4
  | .JL_TIMING_CODEGEN => 5
  | .JL_TIMING_METHOD_LOOKUP_SLOW => 6
  | .JL_TIMING_METHOD_LOOKUP_FAST => 7
  | .JL_TIMING_LLVM_OPT => 8
  | .JL_TIMING_LLVM_MODULE_FINISH => 9
  | .JL_TIMING_METHOD_MATCH => 10
  | .JL_TIMING_TYPE_CACHE_LOOKUP => 11
  | .JL_TIMING_TYPE_CACHE_INSERT => 12
  | .JL_TIMING_STAGED_FUNCTION => 13
  | .JL_TIMING_MACRO_INVOCATION => 14
  | .JL_TIMING_AST_COMPRESS => 15
  | .JL_TIMING_AST_UNCOMPRESS => 16
  | .JL_TIMING_SYSIMG_LOAD => 17
  | .JL_TIMING_SYSIMG_DUMP => 18
  | .JL_TIMING_NATIVE_DUMP => 19
  | .JL_TIMING_ADD_METHOD => 20
  | .JL_TIMING_LOAD_MODULE => 21
  | .JL_TIMING_SAVE_MODULE => 22
  | .JL_TIMING_INIT_MODULE => 23

/-- The list `JL_TIMING_OWNERS` of the header, entry `X(name)` being the
enumerator `JL_TIMING_name`, in the order in which the header lists them. -/
def JL_TIMING_OWNERS : List jl_timing_owners :=
  [.JL_TIMING_ROOT, .JL_TIMING_GC, .JL_TIMING_LOWERING, .JL_TIMING_PARSING,
   .JL_TIMING_INFERENCE, .JL_TIMING_CODEGEN, .JL_TIMING_METHOD_LOOKUP_SLOW,
   .JL_TIMING_METHOD_LOOKUP_FAST, .JL_TIMING_LLVM_OPT, .JL_TIMING_LLVM_MODULE_FINISH,
   .JL_TIMING_METHOD_MATCH, .JL_TIMING_TYPE_CACHE_LOOKUP, .JL_TIMING_TYPE_CACHE_INSERT,
   .JL_TIMING_STAGED_FUNCTION, .JL_TIMING_MACRO_INVOCATION, .JL_TIMING_AST_COMPRESS,
   .JL_TIMING_AST_UNCOMPRESS, .JL_TIMING_SYSIMG_LOAD, .JL_TIMING_SYSIMG_DUMP,
   .JL_TIMING_NATIVE_DUMP, .JL_TIMING_ADD_METHOD, .JL_TIMING_LOAD_MODULE,
   .JL_TIMING_SAVE_MODULE, .JL_TIMING_INIT_MODULE]

/-- The enumerator `JL_TIMING_LAST`, which follows the last owner. -/
def JL_TIMING_LAST : Nat := 24

/-! ## Records -/

/-- The struct `jl_timing_counts_t`.  The field `running` exists in debug
builds only; release builds neither read nor write it. -/
structure jl_timing_counts_t where
  total : Nat
  t0 : Nat
  owner : Int
  running : Nat
deriving DecidableEq, Repr

/-- The handle `TracyCZoneCtx` of the profiler client (`tracy/TracyC.h`). -/
structure TracyCZoneCtx where
  name : String
  active : Nat
deriving DecidableEq, Repr

/-- The struct `_jl_timing_block_t`: the link `prev`, the handle of the trace
back-end (`_TRACY_CTX_MEMBER`) and the counts sub-state (`_COUNTS_CTX_MEMBER`). -/
structure jl_timing_block_t where
  prev : Nat
  tracy_ctx : TracyCZoneCtx
  counts_ctx : jl_timing_counts_t
deriving DecidableEq, Repr

/-- What went wrong when an operation does not complete: the `assert` that
failed. -/
inductive Fault where
  | assert_running
  | assert_not_running
  | assert_top
deriving DecidableEq, Repr

/-! ## The external profiler client and the task -/

/-- A region message the trace back-end sends to the profiler client. -/
inductive TracyMsg where
  | zone_begin (name : String)
  | zone_end (name : String)
deriving DecidableEq, Repr

/-- Modelled from the spec: the external visual profiler, which the header
reaches only through `TracyCZoneN`, `TracyCZoneEnd` and `TracyCFiberEnter`.
Its state is the label of the fiber it currently attributes activity to and
the region messages it has received, newest first. -/
structure Tracy where
  fiber : String
  log : List TracyMsg
deriving DecidableEq, Repr

/-- Modelled from the spec: `beginRegion(name, enabled)` of the trace
back-end, `TracyCZoneN(ctx, name, active)` of `tracy/TracyC.h`.  It returns
the handle and opens a region when `active` is non-zero. -/
def TracyCZoneN (name : String) (active : Nat) (tr : Tracy) : TracyCZoneCtx × Tracy :=
  ({ name := name, active := active },
   if active ≠ 0 then { tr with log := TracyMsg.zone_begin name :: tr.log } else tr)

/-- Modelled from the spec: `endRegion(handle)` of the trace back-end,
`TracyCZoneEnd(ctx)` of `tracy/TracyC.h`, a no-op for an inactive handle. -/
def TracyCZoneEnd (ctx : TracyCZoneCtx) (tr : Tracy) : Tracy :=
  if ctx.active ≠ 0 then { tr with log := TracyMsg.zone_end ctx.name :: tr.log } else tr

/-- Modelled from the spec: `TracyCFiberEnter(label)` of `tracy/TracyC.h`,
which makes `label` the fiber the profiler attributes activity to. -/
def TracyCFiberEnter (label : String) (tr : Tracy) : Tracy :=
  { tr with fiber := label }

/-- The part of `jl_task_t` (declared in `julia.h`) that this header reads
through a task pointer other than the current task: the field `name`. -/
structure jl_task_t where
  name : String
deriving DecidableEq, Repr

/-- The struct `jl_timing_suspend_t`. -/
structure jl_timing_suspend_t where
  ct : jl_task_t
deriving DecidableEq, Repr

/-! ## Program state -/

/-- The state the header reads and writes: the table `jl_timing_counts`
(indexed by the `int` owner), the global `jl_timing_enable_mask`, the zone
records by address, `jl_current_task->ptls->timing_stack`, and the profiler. -/
structure State where
  jl_timing_counts : Int → Nat
  jl_timing_enable_mask : Nat
  mem : Nat → jl_timing_block_t
  timing_stack : Nat
  tracy : Tracy

/-! ## Aggregated counts back-end -/

/-- The function `_jl_timing_counts_stop(block, t)`. -/
def _jl_timing_counts_stop (cfg : Build) (block : jl_timing_counts_t) (t : Nat) :
    Except Fault jl_timing_counts_t :=
  if cfg.JL_DEBUG_BUILD then
    if block.running = 0 then Except.error Fault.assert_running
    else
      let block := { block with running := 0 }
      Except.ok { block with total := add64 block.total (sub64 t block.t0) }
  else
    Except.ok { block with total := add64 block.total (sub64 t block.t0) }

/-- The function `_jl_timing_counts_start(block, t)`. -/
def _jl_timing_counts_start (cfg : Build) (block : jl_timing_counts_t) (t : Nat) :
    Except Fault jl_timing_counts_t :=
  if cfg.JL_DEBUG_BUILD then
    if block.running ≠ 0 then Except.error Fault.assert_not_running
    else
      let block := { block with running := 1 }
      Except.ok { block with t0 := t }
  else
    Except.ok { block with t0 := t }

/-- The function `_jl_timing_counts_ctor(block, owner)`. -/
def _jl_timing_counts_ctor (cfg : Build) (block : jl_timing_counts_t) (owner : Int) :
    jl_timing_counts_t :=
  let block := { block with owner := owner }
  let block := { block with total := 0 }
  if cfg.JL_DEBUG_BUILD then { block with running := 0 } else block

/-- The function `_jl_timing_counts_destroy(block)`, on the table. -/
def _jl_timing_counts_destroy (block : jl_timing_counts_t) (counts : Int → Nat) : Int → Nat :=
  store counts block.owner (add64 (counts block.owner) block.total)

/-! ## Top-level implementation -/

/-- The function `_jl_timing_block_ctor(block, owner)` with `cycleclock() = t`. -/
def _jl_timing_block_ctor (cfg : Build) (block : Nat) (owner : Int) (t : Nat) (s : State) :
    Except Fault State :=
  let c := _jl_timing_counts_ctor cfg (s.mem block).counts_ctx owner
  match _jl_timing_counts_start cfg c t with
  | Except.error e => Except.error e
  | Except.ok c =>
    let mem := store s.mem block { s.mem block with counts_ctx := c }
    let prev := s.timing_stack
    let mem := store mem block { mem block with prev := prev }
    if (mem block).prev ≠ 0 then
      match _jl_timing_counts_stop cfg (mem (mem block).prev).counts_ctx t with
      | Except.error e => Except.error e
      | Except.ok p =>
        let mem := store mem (mem block).prev
          { mem (mem block).prev with counts_ctx := p }
        Except.ok { s with mem := mem, timing_stack := block }
    else
      Except.ok { s with mem := mem, timing_stack := block }

/-- The function `_jl_timing_block_destroy(block)` with `cycleclock() = t`. -/
def _jl_timing_block_destroy (cfg : Build) (block : Nat) (t : Nat) (s : State) :
    Except Fault State :=
  match _jl_timing_counts_stop cfg (s.mem block).counts_ctx t with
  | Except.error e => Except.error e
  | Except.ok c =>
    let mem := store s.mem block { s.mem block with counts_ctx := c }
    let counts := _jl_timing_counts_destroy (mem block).counts_ctx s.jl_timing_counts
    let tracy := if cfg.USE_TRACY then TracyCZoneEnd (mem block).tracy_ctx s.tracy else s.tracy
    if cfg.JL_DEBUG_BUILD ∧ s.timing_stack ≠ block then Except.error Fault.assert_top
    else if (mem block).prev ≠ 0 then
      match _jl_timing_counts_start cfg (mem (mem block).prev).counts_ctx t with
      | Except.error e => Except.error e
      | Except.ok p =>
        Except.ok { s with
          jl_timing_counts := counts
          tracy := tracy
          timing_stack := (mem block).prev
          mem := store mem (mem block).prev
            { mem (mem block).prev with counts_ctx := p } }
    else
      Except.ok { s with
        jl_timing_counts := counts, tracy := tracy, timing_stack := (mem block).prev, mem := mem }

/-- The function `_jl_timing_suspend_ctor(suspend, subsystem, ct)`. -/
def _jl_timing_suspend_ctor (cfg : Build) (suspend : jl_timing_suspend_t) (subsystem : String)
    (ct : jl_task_t) (s : State) : jl_timing_suspend_t × State :=
  let suspend := { suspend with ct := ct }
  (suspend, if cfg.USE_TRACY then { s with tracy := TracyCFiberEnter subsystem s.tracy } else s)

/-- The function `_jl_timing_suspend_destroy(suspend)`. -/
def _jl_timing_suspend_destroy (cfg : Build) (suspend : jl_timing_suspend_t) (s : State) : State :=
  if cfg.USE_TRACY then { s with tracy := TracyCFiberEnter suspend.ct.name s.tracy } else s

/-- The block `{ JL_TIMING_SUSPEND(subsystem, ct); body }`: the statement
declares the guard and runs its constructor, `body` is the rest of the block,
and the destructor runs when the block is left (the `cleanup` attribute in C,
the destructor of `jl_timing_suspend_cpp_t` in C++). -/
def suspend_scope (cfg : Build) (subsystem : String) (ct : jl_task_t) (body : State → State)
    (s : State) : State :=
  let r := _jl_timing_suspend_ctor cfg { ct := { name := "" } } subsystem ct s
  _jl_timing_suspend_destroy cfg r.1 (body r.2)

/-- The enable flag `(jl_timing_enable_mask >> (JL_TIMING_ ## subsystem)) & 1`
that `JL_TIMING` hands to the trace back-end. -/
def jl_timing_enable_flag (mask : Nat) (i : Nat) : Nat := (mask >>> i) &&& 1

/-- The wrapper `_TRACY_CTOR(context, name, enable)`, on the record at
address `block`: empty unless `USE_TRACY` is defined. -/
def _TRACY_CTOR (cfg : Build) (block : Nat) (name : String) (enable : Nat) (s : State) : State :=
  if cfg.USE_TRACY then
    let r := TracyCZoneN name enable s.tracy
    { s with mem := store s.mem block { s.mem block with tracy_ctx := r.1 }, tracy := r.2 }
  else s

/-- The statement `JL_TIMING(subsystem, event)` on the record at address
`block`: the constructor, then the region of the trace back-end, gated by the
bit of the owner in the mask. -/
def JL_TIMING (cfg : Build) (block : Nat) (subsystem : jl_timing_owners) (event : String)
    (t : Nat) (s : State) : Except Fault State :=
  match _jl_timing_block_ctor cfg block (subsystem.val : Int) t s with
  | Except.error e => Except.error e
  | Except.ok s =>
    Except.ok (_TRACY_CTOR cfg block event
      (jl_timing_enable_flag s.jl_timing_enable_mask subsystem.val) s)

/-! ## Sequences of zone enters and exits -/

/-- One call on the execution context: `enter block owner t` is
`_jl_timing_block_ctor(block, owner)` and `exit block t` is
`_jl_timing_block_destroy(block)`, each with the clock reading `t`. -/
inductive Event where
  | enter (block : Nat) (owner : Int) (t : Nat)
  | exit (block : Nat) (t : Nat)
deriving DecidableEq, Repr

/-- The clock reading of an event. -/
def Event.time : Event → Nat
  | Event.enter _ _ t => t
  | Event.exit _ t => t

/-- One event, run on the state. -/
def step (cfg : Build) : Event → State → Except Fault State
  | Event.enter block owner t, s => _jl_timing_block_ctor cfg block owner t s
  | Event.exit block t, s => _jl_timing_block_destroy cfg block t s

/-- A sequence of events, run in order; the first failed assertion ends it. -/
def run (cfg : Build) : List Event → State → Except Fault State
  | [], s => Except.ok s
  | e :: es, s =>
    match step cfg e s with
    | Except.error f => Except.error f
    | Except.ok s => run cfg es s

/-- Proper nesting.  `nesting live es` follows the addresses of the records
that are live (innermost first) through `es`: an enter brings a record that is
not `NULL` and not live (every `JL_TIMING` scope declares its own record), an
exit is for the innermost live record.  The result is the list of records live
at the end, or `none` when the sequence is not properly nested. -/
def nesting : List Nat → List Event → Option (List Nat)
  | live, [] => some live
  | live, Event.enter block _ _ :: es =>
    if block ≠ 0 ∧ block ∉ live then nesting (block :: live) es else none
  | [], Event.exit _ _ :: _ => none
  | top :: live, Event.exit block _ :: es =>
    if block = top then nesting live es else none

/-- The number of enters of a sequence. -/
def enters : List Event → Nat
  | [] => 0
  | Event.enter _ _ _ :: es => enters es + 1
  | Event.exit _ _ :: es => enters es

/-- The number of exits of a sequence. -/
def exits : List Event → Nat
  | [] => 0
  | Event.enter _ _ _ :: es => exits es
  | Event.exit _ _ :: es => exits es + 1

/-- The clock readings of the events are `uint64_t` values and never go
back, starting from the reading `last`. -/
def monotoneClock : Nat → List Event → Bool
  | _, [] => true
  | last, e :: es => decide (last ≤ e.time) && decide (e.time < 2 ^ 64) && monotoneClock e.time es

/-- Exclusive time of owner `o` over a sequence of events: the sum of the
lengths of the intervals between consecutive events during which the innermost
open zone has owner `o`.  `open_owners` lists the owners of the open zones,
innermost first, and `last` is the reading of the previous event. -/
def exclusive (o : Int) : List Int → Nat → List Event → Nat
  | _, _, [] => 0
  | open_owners, last, Event.enter _ owner t :: es =>
    (if open_owners.head? = some o then t - last else 0) + exclusive o (owner :: open_owners) t es
  | open_owners, last, Event.exit _ t :: es =>
    (if open_owners.head? = some o then t - last else 0) + exclusive o open_owners.tail t es

/-! ## The prev-chain -/

/-- The records on the prev-chain: `IsChain mem p chain` says that following
`prev` from the pointer `p` visits exactly the addresses of `chain`, in
order, and then reaches `NULL`. -/
def IsChain (mem : Nat → jl_timing_block_t) : Nat → List Nat → Prop
  | p, [] => p = 0
  | p, a :: chain => p = a ∧ a ≠ 0 ∧ IsChain mem (mem a).prev chain

/-- The running flags of a chain in a debug build: the top record runs (`1`)
and all its ancestors are paused (`0`). -/
def RunningOK (mem : Nat → jl_timing_block_t) : List Nat → Prop
  | [] => True
  | a :: chain => (mem a).counts_ctx.running = 1 ∧ ∀ b ∈ chain, (mem b).counts_ctx.running = 0

/-- The invariant of the zone stack: the live records are the prev-chain from
`timing_stack`, no record is live twice, and in a debug build the running
flags are as `RunningOK` says. -/
def Inv (cfg : Build) (s : State) (live : List Nat) : Prop :=
  IsChain s.mem s.timing_stack live ∧ live.Nodup ∧
    (cfg.JL_DEBUG_BUILD = true → RunningOK s.mem live)

/-- The time that the live records of owner `o` have accumulated but not yet
folded into the table. -/
def pending (mem : Nat → jl_timing_block_t) (o : Int) (live : List Nat) : Nat :=
  (live.map fun a => if (mem a).counts_ctx.owner = o then (mem a).counts_ctx.total else 0).sum

/-! ## The operations when no assertion fails -/

/-- The counts sub-state after `_jl_timing_counts_stop` passes its assertion. -/
def stopped (cfg : Build) (c : jl_timing_counts_t) (t : Nat) : jl_timing_counts_t :=
  { total := add64 c.total (sub64 t c.t0), t0 := c.t0, owner := c.owner,
    running := if cfg.JL_DEBUG_BUILD then 0 else c.running }

/-- The counts sub-state after `_jl_timing_counts_start` passes its assertion. -/
def started (cfg : Build) (c : jl_timing_counts_t) (t : Nat) : jl_timing_counts_t :=
  { total := c.total, t0 := t, owner := c.owner,
    running := if cfg.JL_DEBUG_BUILD then 1 else c.running }

/-- The counts sub-state of a record after `_jl_timing_counts_ctor` and the
`_jl_timing_counts_start` that follows it in `_jl_timing_block_ctor`. -/
def created (cfg : Build) (c : jl_timing_counts_t) (owner : Int) (t : Nat) : jl_timing_counts_t :=
  { total := 0, t0 := t, owner := owner, running := if cfg.JL_DEBUG_BUILD then 1 else c.running }

/-- The state after `_jl_timing_block_ctor(block, owner)` at reading `t`, when
`block` is not the record on top and no assertion fails. -/
def pushed (cfg : Build) (block : Nat) (owner : Int) (t : Nat) (s : State) : State :=
  let m := store s.mem block
    { prev := s.timing_stack, tracy_ctx := (s.mem block).tracy_ctx,
      counts_ctx := created cfg (s.mem block).counts_ctx owner t }
  { s with
    timing_stack := block
    mem := if s.timing_stack = 0 then m else
      store m s.timing_stack
        { s.mem s.timing_stack with
          counts_ctx := stopped cfg (s.mem s.timing_stack).counts_ctx t } }

/-- The state after `_jl_timing_block_destroy(block)` at reading `t`, when
`block` is not its own `prev` and no assertion fails. -/
def popped (cfg : Build) (block : Nat) (t : Nat) (s : State) : State :=
  let c := stopped cfg (s.mem block).counts_ctx t
  let m := store s.mem block { s.mem block with counts_ctx := c }
  { s with
    jl_timing_counts :=
      store s.jl_timing_counts c.owner (add64 (s.jl_timing_counts c.owner) c.total)
    tracy := if cfg.USE_TRACY then TracyCZoneEnd (s.mem block).tracy_ctx s.tracy else s.tracy
    timing_stack := (s.mem block).prev
    mem := if (s.mem block).prev = 0 then m else
      store m (s.mem block).prev
        { s.mem (s.mem block).prev with
          counts_ctx := started cfg (s.mem (s.mem block).prev).counts_ctx t } }

/-- The owners of the live records, innermost first. -/
def owners (mem : Nat → jl_timing_block_t) (live : List Nat) : List Int :=
  live.map fun a => (mem a).counts_ctx.owner

/-- A state with no zone open: the table is all zero, the mask is zero, the
profiler has received nothing and attributes activity to the fiber `root`. -/
def idle : State :=
  { jl_timing_counts := fun _ => 0
    jl_timing_enable_mask := 0
    mem := fun _ =>
      { prev := 0, tracy_ctx := { name := "", active := 0 },
        counts_ctx := { total := 0, t0 := 0, owner := 0, running := 0 } }
    timing_stack := 0
    tracy := { fiber := "root", log := [] } }

/-- A state of a debug build with one zone open: from `idle`, the record 1 of
owner PARSING (3) was entered at the reading 100. -/
def one_open : State := pushed ⟨true, true⟩ 1 3 100 idle

/-- A state of a debug build with two zones open: from `one_open`, the record 2
of owner LOWERING (2) was entered at the reading 104. -/
def two_open : State := pushed ⟨true, true⟩ 2 2 104 one_open

/-! ## Mask writes between zones -/

/-- An operation of a program that also writes the enable mask: a `JL_TIMING`
statement, the destructor of its record, or an assignment to the global
`jl_timing_enable_mask`. -/
inductive Op where
  | zone (block : Nat) (subsystem : jl_timing_owners) (event : String) (t : Nat)
  | destroy (block : Nat) (t : Nat)
  | set_mask (mask : Nat)
deriving DecidableEq, Repr

/-- Whether the operation is a zone enter or exit. -/
def Op.isZone : Op → Bool
  | Op.set_mask _ => false
  | _ => true

/-- One operation, run on the state. -/
def stepOp (cfg : Build) : Op → State → Except Fault State
  | Op.zone block subsystem event t, s => JL_TIMING cfg block subsystem event t s
  | Op.destroy block t, s => _jl_timing_block_destroy cfg block t s
  | Op.set_mask mask, s => Except.ok { s with jl_timing_enable_mask := mask }

/-- A sequence of operations, run in order. -/
def runOps (cfg : Build) : List Op → State → Except Fault State
  | [], s => Except.ok s
  | op :: ops, s =>
    match stepOp cfg op s with
    | Except.error f => Except.error f
    | Except.ok s => runOps cfg ops s

/-- What the counts back-end and the zone stack consist of: the table, the
stack pointer, and of every record its link and its counts sub-state. -/
structure CountsView where
  jl_timing_counts : Int → Nat
  timing_stack : Nat
  prev : Nat → Nat
  counts_ctx : Nat → jl_timing_counts_t

/-- The counts back-end and zone stack of a state. -/
def countsView (s : State) : CountsView :=
  { jl_timing_counts := s.jl_timing_counts
    timing_stack := s.timing_stack
    prev := fun a => (s.mem a).prev
    counts_ctx := fun a => (s.mem a).counts_ctx }

/-! ## Setting an enable bit by name -/

/-- Modelled from the spec: the array `jl_timing_names` (defined in
`timing.c`, declared here), the display names of the owners, entry `i` being
the name of the owner with index `i`. -/
def jl_timing_names : List String :=
  ["ROOT", "GC", "LOWERING", "PARSING", "INFERENCE", "CODEGEN", "METHOD_LOOKUP_SLOW",
   "METHOD_LOOKUP_FAST", "LLVM_OPT", "LLVM_MODULE_FINISH", "METHOD_MATCH", "TYPE_CACHE_LOOKUP",
   "TYPE_CACHE_INSERT", "STAGED_FUNCTION", "MACRO_INVOCATION", "AST_COMPRESS", "AST_UNCOMPRESS",
   "SYSIMG_LOAD", "SYSIMG_DUMP", "NATIVE_DUMP", "ADD_METHOD", "LOAD_MODULE", "SAVE_MODULE",
   "INIT_MODULE"]

/-- Modelled from the spec: `jl_timing_set_enable(subsystem, enabled)`
(defined in `timing.c`, declared here).  It looks the name up in
`jl_timing_names` by exact match; on a match at index `i` it sets bit `i` of
the 64-bit mask when `enabled` is non-zero and clears it otherwise, and returns
`0`; without a match it returns `-1` and leaves the mask as it is.  The result
is the return value and the new mask. -/
def jl_timing_set_enable (subsystem : String) (enabled : Nat) (mask : Nat) : Int × Nat :=
  let i := jl_timing_names.indexOf subsystem
  if i < jl_timing_names.length then
    (0, if enabled ≠ 0 then mask ||| (1 <<< i) else mask &&& (2 ^ 64 - 1 - (1 <<< i)))
  else (-1, mask)

/-! ## Sums over the table -/

/-- The address of the record that an event is about. -/
def Event.block : Event → Nat
  | Event.enter block _ _ => block
  | Event.exit block _ => block

/-- Every zone that the sequence enters has an owner that indexes the table:
`0 ≤ owner < JL_TIMING_LAST`. -/
def ownersInTable : List Event → Bool
  | [] => true
  | Event.enter _ owner _ :: es =>
    decide (0 ≤ owner) && decide (owner < (JL_TIMING_LAST : Int)) && ownersInTable es
  | Event.exit _ _ :: es => ownersInTable es

/-- The sum of the entries `jl_timing_counts[0]`, ..., `jl_timing_counts[JL_TIMING_LAST - 1]`
of the table. -/
def tableSum (counts : Int → Nat) : Nat :=
  ((List.range JL_TIMING_LAST).map fun (i : Nat) => counts (i : Int)).sum

/-- The sum of the totals that the live records hold. -/
def heldSum (mem : Nat → jl_timing_block_t) (live : List Nat) : Nat :=
  (live.map fun a => (mem a).counts_ctx.total).sum

/-- The increase of the entry of owner `o` between the states `s` and `s'`, as
the `uint64_t` difference of the two values. -/
def increase (s s' : State) (o : Int) : Nat :=
  sub64 (s'.jl_timing_counts o) (s.jl_timing_counts o)

/-- The sum over all owners of the increases of their entries between `s` and
`s'`, modulo `2 ^ 64`. -/
def total_increase (s s' : State) : Nat :=
  ((List.range JL_TIMING_LAST).map fun (i : Nat) => increase s s' (i : Int)).sum % 2 ^ 64

/-! ## Arithmetic and memory lemmas -/

theorem sub64_of_le (a b : Nat) (h : b ≤ a) (ha : a < 2 ^ 64) : sub64 a b = a - b := by
  unfold sub64
  have hb : b % 2 ^ 64 = b := Nat.mod_eq_of_lt (by omega)
  rw [hb]
  omega

theorem add64_of_lt (a b : Nat) (h : a + b < 2 ^ 64) : add64 a b = a + b := by
  unfold add64
  exact Nat.mod_eq_of_lt h

theorem store_same {κ α : Type} [DecidableEq κ] (f : κ → α) (k : κ) (v : α) :
    store f k v k = v := by
  simp [store]

theorem store_ne {κ α : Type} [DecidableEq κ] (f : κ → α) (k : κ) (v : α) (x : κ) (h : x ≠ k) :
    store f k v x = f x := by
  simp [store, h]

theorem store_store {κ α : Type} [DecidableEq κ] (f : κ → α) (k : κ) (v w : α) :
    store (store f k v) k w = store f k w := by
  funext x
  by_cases h : x = k <;> simp [store, h]

theorem stop_eq (cfg : Build) (c : jl_timing_counts_t) (t : Nat)
    (h : cfg.JL_DEBUG_BUILD = true → c.running ≠ 0) :
    _jl_timing_counts_stop cfg c t = Except.ok (stopped cfg c t) := by
  unfold _jl_timing_counts_stop stopped
  cases hd : cfg.JL_DEBUG_BUILD
  · simp
  · simp [h hd]

theorem start_eq (cfg : Build) (c : jl_timing_counts_t) (t : Nat)
    (h : cfg.JL_DEBUG_BUILD = true → c.running = 0) :
    _jl_timing_counts_start cfg c t = Except.ok (started cfg c t) := by
  unfold _jl_timing_counts_start started
  cases hd : cfg.JL_DEBUG_BUILD
  · simp
  · simp [h hd]

theorem ctor_start_eq (cfg : Build) (c : jl_timing_counts_t) (owner : Int) (t : Nat) :
    _jl_timing_counts_start cfg (_jl_timing_counts_ctor cfg c owner) t
      = Except.ok (created cfg c owner t) := by
  unfold _jl_timing_counts_start _jl_timing_counts_ctor created
  cases hd : cfg.JL_DEBUG_BUILD <;> simp

theorem ctor_eq (cfg : Build) (block : Nat) (owner : Int) (t : Nat) (s : State)
    (hne : s.timing_stack ≠ block)
    (hrun : cfg.JL_DEBUG_BUILD = true → s.timing_stack ≠ 0 →
      (s.mem s.timing_stack).counts_ctx.running ≠ 0) :
    _jl_timing_block_ctor cfg block owner t s = Except.ok (pushed cfg block owner t s) := by
  unfold _jl_timing_block_ctor pushed
  simp only [ctor_start_eq, store_same, store_store]
  by_cases h0 : s.timing_stack = 0
  · simp [h0]
  · have hs := stop_eq cfg (s.mem s.timing_stack).counts_ctx t (fun hd => hrun hd h0)
    simp [h0, store_ne _ _ _ _ hne, hs]

theorem destroy_eq (cfg : Build) (block : Nat) (t : Nat) (s : State)
    (hne : (s.mem block).prev ≠ block)
    (hrun : cfg.JL_DEBUG_BUILD = true → (s.mem block).counts_ctx.running ≠ 0)
    (htop : cfg.JL_DEBUG_BUILD = true → s.timing_stack = block)
    (hprev : cfg.JL_DEBUG_BUILD = true → (s.mem block).prev ≠ 0 →
      (s.mem (s.mem block).prev).counts_ctx.running = 0) :
    _jl_timing_block_destroy cfg block t s = Except.ok (popped cfg block t s) := by
  unfold _jl_timing_block_destroy popped
  simp only [stop_eq cfg _ t hrun, store_same, _jl_timing_counts_destroy]
  have h1 : ¬ (cfg.JL_DEBUG_BUILD = true ∧ s.timing_stack ≠ block) := fun h => h.2 (htop h.1)
  by_cases h0 : (s.mem block).prev = 0
  · simp [h0, h1, stopped]
  · have hs := start_eq cfg (s.mem (s.mem block).prev).counts_ctx t (fun hd => hprev hd h0)
    simp [h0, h1, store_ne _ _ _ _ hne, hs, stopped]

/-! ## The stack invariant -/

theorem isChain_congr (mem mem' : Nat → jl_timing_block_t) (chain : List Nat) :
    ∀ p, (∀ a ∈ chain, (mem' a).prev = (mem a).prev) →
      (IsChain mem' p chain ↔ IsChain mem p chain) := by
  induction chain with
  | nil => intro p _; simp [IsChain]
  | cons a chain ih =>
    intro p h
    have ha := h a (List.mem_cons_self a chain)
    have ih' := ih (mem a).prev (fun x hx => h x (List.mem_cons_of_mem a hx))
    simp [IsChain, ha, ih']

theorem isChain_head (mem : Nat → jl_timing_block_t) (p : Nat) (chain : List Nat)
    (h : IsChain mem p chain) : p = 0 ∨ p ∈ chain := by
  cases chain with
  | nil => left; simpa [IsChain] using h
  | cons a chain => right; simp [IsChain] at h; simp [h.1]

theorem isChain_zero (mem : Nat → jl_timing_block_t) (chain : List Nat)
    (h : IsChain mem 0 chain) : chain = [] := by
  cases chain with
  | nil => rfl
  | cons a chain =>
    simp only [IsChain] at h
    exact absurd h.1.symm h.2.1

theorem isChain_not_mem_zero (mem : Nat → jl_timing_block_t) (chain : List Nat) :
    ∀ p, IsChain mem p chain → 0 ∉ chain := by
  induction chain with
  | nil => intro p _; simp
  | cons a chain ih =>
    intro p h
    simp only [IsChain] at h
    simp only [List.mem_cons, not_or]
    exact ⟨fun h0 => h.2.1 h0.symm, ih _ h.2.2⟩

theorem pushed_mem_block (cfg : Build) (block : Nat) (owner : Int) (t : Nat) (s : State)
    (hne : s.timing_stack ≠ block) :
    (pushed cfg block owner t s).mem block =
      { prev := s.timing_stack, tracy_ctx := (s.mem block).tracy_ctx,
        counts_ctx := created cfg (s.mem block).counts_ctx owner t } := by
  unfold pushed
  by_cases h0 : s.timing_stack = 0
  · simp [h0, store_same]
  · simp [h0, store_ne _ _ _ _ (Ne.symm hne), store_same]

theorem pushed_mem_top (cfg : Build) (block : Nat) (owner : Int) (t : Nat) (s : State)
    (h0 : s.timing_stack ≠ 0) :
    (pushed cfg block owner t s).mem s.timing_stack =
      { s.mem s.timing_stack with
        counts_ctx := stopped cfg (s.mem s.timing_stack).counts_ctx t } := by
  unfold pushed
  simp [h0, store_same]

theorem pushed_mem_other (cfg : Build) (block : Nat) (owner : Int) (t : Nat) (s : State)
    (a : Nat) (hb : a ≠ block) (ht : a ≠ s.timing_stack) :
    (pushed cfg block owner t s).mem a = s.mem a := by
  unfold pushed
  by_cases h0 : s.timing_stack = 0
  · simp [h0, store_ne _ _ _ _ hb]
  · simp [h0, store_ne _ _ _ _ hb, store_ne _ _ _ _ ht]

theorem pushed_prev (cfg : Build) (block : Nat) (owner : Int) (t : Nat) (s : State)
    (a : Nat) (hb : a ≠ block) :
    ((pushed cfg block owner t s).mem a).prev = (s.mem a).prev := by
  by_cases ht : a = s.timing_stack
  · by_cases h0 : s.timing_stack = 0
    · unfold pushed; simp [h0, store_ne _ _ _ _ hb]
    · rw [ht, pushed_mem_top cfg block owner t s h0]
  · rw [pushed_mem_other cfg block owner t s a hb ht]

theorem popped_mem_prev (cfg : Build) (block : Nat) (t : Nat) (s : State)
    (h0 : (s.mem block).prev ≠ 0) :
    (popped cfg block t s).mem (s.mem block).prev =
      { s.mem (s.mem block).prev with
        counts_ctx := started cfg (s.mem (s.mem block).prev).counts_ctx t } := by
  unfold popped
  simp [h0, store_same]

theorem popped_mem_other (cfg : Build) (block : Nat) (t : Nat) (s : State)
    (a : Nat) (hb : a ≠ block) (hp : a ≠ (s.mem block).prev) :
    (popped cfg block t s).mem a = s.mem a := by
  unfold popped
  by_cases h0 : (s.mem block).prev = 0
  · simp [h0, store_ne _ _ _ _ hb]
  · simp [h0, store_ne _ _ _ _ hb, store_ne _ _ _ _ hp]

theorem popped_prev (cfg : Build) (block : Nat) (t : Nat) (s : State)
    (a : Nat) (hb : a ≠ block) :
    ((popped cfg block t s).mem a).prev = (s.mem a).prev := by
  by_cases hp : a = (s.mem block).prev
  · by_cases h0 : (s.mem block).prev = 0
    · unfold popped; simp [h0, store_ne _ _ _ _ hb]
    · rw [hp, popped_mem_prev cfg block t s h0]
  · rw [popped_mem_other cfg block t s a hb hp]

theorem inv_top_ne (cfg : Build) (s : State) (live : List Nat) (block : Nat)
    (hinv : Inv cfg s live) (hb0 : block ≠ 0) (hfresh : block ∉ live) :
    s.timing_stack ≠ block := by
  rcases isChain_head _ _ _ hinv.1 with h | h
  · rw [h]; exact Ne.symm hb0
  · intro heq; rw [heq] at h; exact hfresh h

theorem inv_pushed (cfg : Build) (s : State) (live : List Nat) (block : Nat) (owner : Int)
    (t : Nat) (hinv : Inv cfg s live) (hb0 : block ≠ 0) (hfresh : block ∉ live) :
    Inv cfg (pushed cfg block owner t s) (block :: live) := by
  have hne := inv_top_ne cfg s live block hinv hb0 hfresh
  obtain ⟨hchain, hnodup, hrun⟩ := hinv
  refine ⟨?_, List.nodup_cons.mpr ⟨hfresh, hnodup⟩, ?_⟩
  · have hts : (pushed cfg block owner t s).timing_stack = block := rfl
    rw [hts]
    refine ⟨rfl, hb0, ?_⟩
    rw [pushed_mem_block cfg block owner t s hne]
    refine (isChain_congr s.mem _ live _ ?_).mpr hchain
    intro a ha
    exact pushed_prev cfg block owner t s a (fun h => hfresh (h ▸ ha))
  · intro hd
    have hold := hrun hd
    refine ⟨?_, ?_⟩
    · rw [pushed_mem_block cfg block owner t s hne]; simp [created, hd]
    · intro a ha
      have hab : a ≠ block := fun h => hfresh (h ▸ ha)
      cases live with
      | nil => simp at ha
      | cons top rest =>
        simp only [IsChain] at hchain
        have htop : s.timing_stack = top := hchain.1
        have ht0 : s.timing_stack ≠ 0 := by rw [htop]; exact hchain.2.1
        by_cases hat : a = top
        · rw [hat, ← htop, pushed_mem_top cfg block owner t s ht0]
          simp [stopped, hd]
        · rw [pushed_mem_other cfg block owner t s a hab (by rw [htop]; exact hat)]
          have : a ∈ rest := by simpa [hat] using ha
          exact hold.2 a this

theorem inv_popped (cfg : Build) (s : State) (live : List Nat) (block : Nat) (t : Nat)
    (hinv : Inv cfg s (block :: live)) :
    Inv cfg (popped cfg block t s) live := by
  obtain ⟨hchain, hnodup, hrun⟩ := hinv
  simp only [IsChain] at hchain
  obtain ⟨_, hb0, hrest⟩ := hchain
  have hnd := List.nodup_cons.mp hnodup
  have hts : (popped cfg block t s).timing_stack = (s.mem block).prev := rfl
  refine ⟨?_, hnd.2, ?_⟩
  · rw [hts]
    refine (isChain_congr s.mem _ live _ ?_).mpr hrest
    intro a ha
    exact popped_prev cfg block t s a (fun h => hnd.1 (h ▸ ha))
  · intro hd
    have hold := hrun hd
    cases live with
    | nil => trivial
    | cons p rest =>
      simp only [IsChain] at hrest
      have hp : (s.mem block).prev = p := hrest.1
      have hp0 : (s.mem block).prev ≠ 0 := by rw [hp]; exact hrest.2.1
      have hnd2 := List.nodup_cons.mp hnd.2
      refine ⟨?_, ?_⟩
      · rw [← hp, popped_mem_prev cfg block t s hp0]; simp [started, hd]
      · intro a ha
        have hab : a ≠ block := fun h => hnd.1 (h ▸ List.mem_cons_of_mem p ha)
        have hap : a ≠ p := fun h => hnd2.1 (h ▸ ha)
        rw [popped_mem_other cfg block t s a hab (by rw [hp]; exact hap)]
        exact hold.2 a (List.mem_cons_of_mem p ha)

theorem ctor_of_inv (cfg : Build) (s : State) (live : List Nat) (block : Nat) (owner : Int)
    (t : Nat) (hinv : Inv cfg s live) (hb0 : block ≠ 0) (hfresh : block ∉ live) :
    _jl_timing_block_ctor cfg block owner t s = Except.ok (pushed cfg block owner t s) := by
  refine ctor_eq cfg block owner t s (inv_top_ne cfg s live block hinv hb0 hfresh) ?_
  intro hd h0
  obtain ⟨hchain, _, hrun⟩ := hinv
  cases live with
  | nil => exact absurd hchain h0
  | cons top rest =>
    have h1 := (hrun hd).1
    rw [hchain.1, h1]
    decide

theorem destroy_of_inv (cfg : Build) (s : State) (live : List Nat) (block : Nat) (t : Nat)
    (hinv : Inv cfg s (block :: live)) :
    _jl_timing_block_destroy cfg block t s = Except.ok (popped cfg block t s) := by
  obtain ⟨hchain, hnodup, hrun⟩ := hinv
  simp only [IsChain] at hchain
  obtain ⟨htop, hb0, hrest⟩ := hchain
  have hnd := List.nodup_cons.mp hnodup
  refine destroy_eq cfg block t s ?_ ?_ (fun _ => htop) ?_
  · rcases isChain_head _ _ _ hrest with h | h
    · rw [h]; exact Ne.symm hb0
    · intro heq; rw [heq] at h; exact hnd.1 h
  · intro hd
    rw [(hrun hd).1]; decide
  · intro hd hp0
    rcases isChain_head _ _ _ hrest with h | h
    · exact absurd h hp0
    · exact (hrun hd).2 _ h

theorem run_of_inv (cfg : Build) (es : List Event) :
    ∀ (s : State) (live live' : List Nat), Inv cfg s live → nesting live es = some live' →
      ∃ s', run cfg es s = Except.ok s' ∧ Inv cfg s' live' := by
  induction es with
  | nil =>
    intro s live live' hinv hn
    simp only [nesting, Option.some.injEq] at hn
    exact ⟨s, rfl, hn ▸ hinv⟩
  | cons e es ih =>
    intro s live live' hinv hn
    cases e with
    | enter block owner t =>
      simp only [nesting] at hn
      split at hn
      · rename_i hc
        obtain ⟨s', hs', hinv'⟩ := ih _ _ _ (inv_pushed cfg s live block owner t hinv hc.1 hc.2) hn
        refine ⟨s', ?_, hinv'⟩
        simp only [run, step, ctor_of_inv cfg s live block owner t hinv hc.1 hc.2, hs']
      · exact absurd hn (by simp)
    | exit block t =>
      cases live with
      | nil => simp [nesting] at hn
      | cons top rest =>
        simp only [nesting] at hn
        split at hn
        · rename_i hc
          subst hc
          obtain ⟨s', hs', hinv'⟩ := ih _ _ _ (inv_popped cfg s rest block t hinv) hn
          refine ⟨s', ?_, hinv'⟩
          simp only [run, step, destroy_of_inv cfg s rest block t hinv, hs']
        · exact absurd hn (by simp)

theorem inv_empty (cfg : Build) (s : State) (h : s.timing_stack = 0) : Inv cfg s [] :=
  ⟨h, List.nodup_nil, fun _ => trivial⟩

theorem nesting_append (p q : List Event) :
    ∀ live, nesting live (p ++ q) = (nesting live p).bind fun l => nesting l q := by
  induction p with
  | nil => intro live; simp [nesting]
  | cons e p ih =>
    intro live
    cases e with
    | enter block owner t =>
      simp only [List.cons_append, nesting]
      split
      · exact ih _
      · rfl
    | exit block t =>
      cases live with
      | nil => simp [nesting]
      | cons top rest =>
        simp only [List.cons_append, nesting]
        split
        · exact ih _
        · rfl

theorem nesting_length (es : List Event) :
    ∀ live live', nesting live es = some live' →
      live'.length + exits es = live.length + enters es := by
  induction es with
  | nil =>
    intro live live' h
    simp only [nesting, Option.some.injEq] at h
    simp [h, exits, enters]
  | cons e es ih =>
    intro live live' h
    cases e with
    | enter block owner t =>
      simp only [nesting] at h
      split at h
      · have := ih _ _ h
        simp only [List.length_cons, exits, enters] at this ⊢
        omega
      · exact absurd h (by simp)
    | exit block t =>
      cases live with
      | nil => simp [nesting] at h
      | cons top rest =>
        simp only [nesting] at h
        split at h
        · have := ih _ _ h
          simp only [List.length_cons, exits, enters] at this ⊢
          omega
        · exact absurd h (by simp)


/-! ## Accumulated time along a run -/

theorem pending_congr (mem mem' : Nat → jl_timing_block_t) (o : Int) (live : List Nat)
    (h : ∀ a ∈ live, (mem' a).counts_ctx.owner = (mem a).counts_ctx.owner ∧
      (mem' a).counts_ctx.total = (mem a).counts_ctx.total) :
    pending mem' o live = pending mem o live := by
  unfold pending
  congr 1
  apply List.map_congr_left
  intro a ha
  rw [(h a ha).1, (h a ha).2]

theorem owners_congr (mem mem' : Nat → jl_timing_block_t) (live : List Nat)
    (h : ∀ a ∈ live, (mem' a).counts_ctx.owner = (mem a).counts_ctx.owner) :
    owners mem' live = owners mem live := by
  unfold owners
  apply List.map_congr_left
  intro a ha
  exact h a ha

theorem pending_cons (mem : Nat → jl_timing_block_t) (o : Int) (a : Nat) (live : List Nat) :
    pending mem o (a :: live) =
      (if (mem a).counts_ctx.owner = o then (mem a).counts_ctx.total else 0)
        + pending mem o live := by
  simp [pending]

theorem pushed_owner (cfg : Build) (block : Nat) (owner : Int) (t : Nat) (s : State)
    (a : Nat) (hb : a ≠ block) :
    ((pushed cfg block owner t s).mem a).counts_ctx.owner = (s.mem a).counts_ctx.owner := by
  by_cases ht : a = s.timing_stack
  · by_cases h0 : s.timing_stack = 0
    · unfold pushed; simp [h0, store_ne _ _ _ _ hb]
    · rw [ht, pushed_mem_top cfg block owner t s h0]; rfl
  · rw [pushed_mem_other cfg block owner t s a hb ht]

theorem popped_owner_total (cfg : Build) (block : Nat) (t : Nat) (s : State)
    (a : Nat) (hb : a ≠ block) :
    ((popped cfg block t s).mem a).counts_ctx.owner = (s.mem a).counts_ctx.owner ∧
    ((popped cfg block t s).mem a).counts_ctx.total = (s.mem a).counts_ctx.total := by
  by_cases hp : a = (s.mem block).prev
  · by_cases h0 : (s.mem block).prev = 0
    · unfold popped; simp [h0, store_ne _ _ _ _ hb]
    · rw [hp, popped_mem_prev cfg block t s h0]; exact ⟨rfl, rfl⟩
  · rw [popped_mem_other cfg block t s a hb hp]; exact ⟨rfl, rfl⟩

theorem pushed_owners (cfg : Build) (s : State) (live : List Nat) (block : Nat) (owner : Int)
    (t : Nat) (hinv : Inv cfg s live) (hb0 : block ≠ 0) (hfresh : block ∉ live) :
    owners (pushed cfg block owner t s).mem (block :: live) = owner :: owners s.mem live := by
  have hne := inv_top_ne cfg s live block hinv hb0 hfresh
  have h1 : owners (pushed cfg block owner t s).mem live = owners s.mem live :=
    owners_congr _ _ _ fun a ha => pushed_owner cfg block owner t s a (fun h => hfresh (h ▸ ha))
  simp only [owners, List.map_cons] at h1 ⊢
  rw [h1, pushed_mem_block cfg block owner t s hne]
  rfl

theorem popped_owners (cfg : Build) (s : State) (live : List Nat) (block : Nat)
    (t : Nat) (hinv : Inv cfg s (block :: live)) :
    owners (popped cfg block t s).mem live = (owners s.mem (block :: live)).tail := by
  have hnd := List.nodup_cons.mp hinv.2.1
  simp only [owners, List.map_cons, List.tail_cons]
  exact owners_congr _ _ _ fun a ha =>
    (popped_owner_total cfg block t s a (fun h => hnd.1 (h ▸ ha))).1

theorem pushed_pending (cfg : Build) (s : State) (live : List Nat) (block : Nat) (owner : Int)
    (t last : Nat) (o : Int) (hinv : Inv cfg s live) (hb0 : block ≠ 0) (hfresh : block ∉ live)
    (hlast : ∀ top rest, live = top :: rest → (s.mem top).counts_ctx.t0 = last)
    (ht : last ≤ t) (ht64 : t < 2 ^ 64)
    (hbound : pending s.mem o live
      + (if (owners s.mem live).head? = some o then t - last else 0) < 2 ^ 64) :
    pending (pushed cfg block owner t s).mem o (block :: live) =
      pending s.mem o live + (if (owners s.mem live).head? = some o then t - last else 0) := by
  have hne := inv_top_ne cfg s live block hinv hb0 hfresh
  rw [pending_cons, pushed_mem_block cfg block owner t s hne]
  have hz : (if (created cfg (s.mem block).counts_ctx owner t).owner = o
      then (created cfg (s.mem block).counts_ctx owner t).total else 0) = 0 := by
    simp [created]
  simp only [hz, Nat.zero_add]
  cases live with
  | nil => simp [pending, owners]
  | cons top rest =>
    obtain ⟨hchain, hnodup, _⟩ := hinv
    simp only [IsChain] at hchain
    have htop : s.timing_stack = top := hchain.1
    have ht0 : s.timing_stack ≠ 0 := by rw [htop]; exact hchain.2.1
    have hnd := List.nodup_cons.mp hnodup
    have hrest : pending (pushed cfg block owner t s).mem o rest = pending s.mem o rest := by
      apply pending_congr
      intro a ha
      have hab : a ≠ block := fun h => hfresh (h ▸ List.mem_cons_of_mem top ha)
      have hat : a ≠ s.timing_stack := by rw [htop]; exact fun h => hnd.1 (h ▸ ha)
      rw [pushed_mem_other cfg block owner t s a hab hat]
      exact ⟨rfl, rfl⟩
    have hmt := pushed_mem_top cfg block owner t s ht0
    rw [htop] at hmt
    rw [pending_cons, pending_cons, hrest, hmt]
    simp only [stopped, hlast top rest rfl, sub64_of_le t last ht ht64]
    simp only [owners, List.map_cons, List.head?_cons, Option.some.injEq] at hbound ⊢
    rw [pending_cons] at hbound
    by_cases ho : (s.mem top).counts_ctx.owner = o
    · simp only [ho, if_true] at hbound ⊢
      rw [add64_of_lt _ _ (by omega)]
      omega
    · simp only [ho, if_false] at hbound ⊢
      omega

theorem popped_potential (cfg : Build) (s : State) (live : List Nat) (block : Nat)
    (t last : Nat) (o : Int) (hinv : Inv cfg s (block :: live))
    (hlast : (s.mem block).counts_ctx.t0 = last) (ht : last ≤ t) (ht64 : t < 2 ^ 64)
    (hbound : s.jl_timing_counts o + pending s.mem o (block :: live)
      + (if (owners s.mem (block :: live)).head? = some o then t - last else 0) < 2 ^ 64) :
    (popped cfg block t s).jl_timing_counts o + pending (popped cfg block t s).mem o live =
      s.jl_timing_counts o + pending s.mem o (block :: live)
        + (if (owners s.mem (block :: live)).head? = some o then t - last else 0) := by
  have hnd := List.nodup_cons.mp hinv.2.1
  have hrest : pending (popped cfg block t s).mem o live = pending s.mem o live :=
    pending_congr _ _ _ _ fun a ha =>
      popped_owner_total cfg block t s a (fun h => hnd.1 (h ▸ ha))
  have hc : (popped cfg block t s).jl_timing_counts =
      store s.jl_timing_counts (s.mem block).counts_ctx.owner
        (add64 (s.jl_timing_counts (s.mem block).counts_ctx.owner)
          (add64 (s.mem block).counts_ctx.total (sub64 t (s.mem block).counts_ctx.t0))) := rfl
  rw [hrest, hc, hlast, sub64_of_le t last ht ht64]
  simp only [owners, List.map_cons, List.head?_cons, Option.some.injEq] at hbound ⊢
  rw [pending_cons] at hbound ⊢
  by_cases ho : (s.mem block).counts_ctx.owner = o
  · simp only [ho, if_true, store_same] at hbound ⊢
    rw [add64_of_lt (s.mem block).counts_ctx.total _ (by omega), add64_of_lt _ _ (by omega)]
    omega
  · simp only [ho, if_false] at hbound ⊢
    rw [store_ne _ _ _ _ (Ne.symm ho)]
    omega

theorem popped_t0 (cfg : Build) (s : State) (live : List Nat) (block : Nat) (t : Nat)
    (hinv : Inv cfg s (block :: live)) :
    ∀ top rest, live = top :: rest → ((popped cfg block t s).mem top).counts_ctx.t0 = t := by
  intro top rest hl
  subst hl
  have hchain := hinv.1
  simp only [IsChain] at hchain
  have hp : (s.mem block).prev = top := hchain.2.2.1
  have hp0 : (s.mem block).prev ≠ 0 := by rw [hp]; exact hchain.2.2.2.1
  rw [← hp, popped_mem_prev cfg block t s hp0]
  rfl

theorem pushed_t0 (cfg : Build) (s : State) (live : List Nat) (block : Nat) (owner : Int)
    (t : Nat) (hinv : Inv cfg s live) (hb0 : block ≠ 0) (hfresh : block ∉ live) :
    ∀ top rest, block :: live = top :: rest →
      ((pushed cfg block owner t s).mem top).counts_ctx.t0 = t := by
  intro top rest hl
  have : block = top := (List.cons.inj hl).1
  subst this
  rw [pushed_mem_block cfg block owner t s (inv_top_ne cfg s live block hinv hb0 hfresh)]
  rfl

theorem run_exclusive (cfg : Build) (es : List Event) :
    ∀ (s : State) (live live' : List Nat) (last : Nat), Inv cfg s live →
      nesting live es = some live' → monotoneClock last es = true →
      (∀ top rest, live = top :: rest → (s.mem top).counts_ctx.t0 = last) →
      (∀ o, s.jl_timing_counts o + pending s.mem o live
        + exclusive o (owners s.mem live) last es < 2 ^ 64) →
      ∃ s', run cfg es s = Except.ok s' ∧ Inv cfg s' live' ∧
        ∀ o, s'.jl_timing_counts o + pending s'.mem o live' =
          s.jl_timing_counts o + pending s.mem o live
            + exclusive o (owners s.mem live) last es := by
  induction es with
  | nil =>
    intro s live live' last hinv hn _ _ _
    simp only [nesting, Option.some.injEq] at hn
    subst hn
    exact ⟨s, rfl, hinv, fun o => by simp [exclusive]⟩
  | cons e es ih =>
    intro s live live' last hinv hn hclock hlast hbound
    simp only [monotoneClock, Bool.and_eq_true, decide_eq_true_eq] at hclock
    obtain ⟨⟨hle, h64⟩, hclock'⟩ := hclock
    cases e with
    | enter block owner t =>
      simp only [Event.time] at hle h64 hclock'
      simp only [nesting] at hn
      split at hn
      · rename_i hc
        have hstep : ∀ o, (pushed cfg block owner t s).jl_timing_counts o
            + pending (pushed cfg block owner t s).mem o (block :: live) =
            s.jl_timing_counts o + pending s.mem o live
              + (if (owners s.mem live).head? = some o then t - last else 0) := by
          intro o
          have hb := hbound o
          simp only [exclusive] at hb
          have := pushed_pending cfg s live block owner t last o hinv hc.1 hc.2 hlast hle h64
            (by omega)
          have hcs : (pushed cfg block owner t s).jl_timing_counts = s.jl_timing_counts := rfl
          rw [hcs, this]
          omega
        have hown := pushed_owners cfg s live block owner t hinv hc.1 hc.2
        obtain ⟨s', hs', hinv', hfin⟩ := ih (pushed cfg block owner t s) (block :: live) live' t
          (inv_pushed cfg s live block owner t hinv hc.1 hc.2) hn hclock'
          (pushed_t0 cfg s live block owner t hinv hc.1 hc.2)
          (by
            intro o
            have hb := hbound o
            simp only [exclusive] at hb
            rw [hstep o, hown]
            omega)
        refine ⟨s', ?_, hinv', ?_⟩
        · simp only [run, step, ctor_of_inv cfg s live block owner t hinv hc.1 hc.2, hs']
        · intro o
          rw [hfin o, hstep o, hown]
          simp only [exclusive]
          omega
      · exact absurd hn (by simp)
    | exit block t =>
      simp only [Event.time] at hle h64 hclock'
      cases live with
      | nil => simp [nesting] at hn
      | cons top rest =>
        simp only [nesting] at hn
        split at hn
        · rename_i hc
          subst hc
          have hl := hlast block rest rfl
          have hstep : ∀ o, (popped cfg block t s).jl_timing_counts o
              + pending (popped cfg block t s).mem o rest =
              s.jl_timing_counts o + pending s.mem o (block :: rest)
                + (if (owners s.mem (block :: rest)).head? = some o then t - last else 0) := by
            intro o
            have hb := hbound o
            simp only [exclusive] at hb
            exact popped_potential cfg s rest block t last o hinv hl hle h64 (by omega)
          have hown := popped_owners cfg s rest block t hinv
          obtain ⟨s', hs', hinv', hfin⟩ := ih (popped cfg block t s) rest live' t
            (inv_popped cfg s rest block t hinv) hn hclock'
            (popped_t0 cfg s rest block t hinv)
            (by
              intro o
              have hb := hbound o
              simp only [exclusive] at hb
              rw [hstep o, hown]
              omega)
          refine ⟨s', ?_, hinv', ?_⟩
          · simp only [run, step, destroy_of_inv cfg s rest block t hinv, hs']
          · intro o
            rw [hfin o, hstep o, hown]
            simp only [exclusive]
            omega
        · exact absurd hn (by simp)


/-! ## The table under one operation -/

theorem stop_ok (cfg : Build) (c c' : jl_timing_counts_t) (t : Nat)
    (h : _jl_timing_counts_stop cfg c t = Except.ok c') : c' = stopped cfg c t := by
  unfold _jl_timing_counts_stop at h
  unfold stopped
  cases hd : cfg.JL_DEBUG_BUILD
  · simp [hd] at h; simp [← h]
  · simp [hd] at h
    split at h
    · exact absurd h (by simp)
    · simp at h; simp [← h]

theorem ctor_counts (cfg : Build) (block : Nat) (owner : Int) (t : Nat) (s s' : State)
    (h : _jl_timing_block_ctor cfg block owner t s = Except.ok s') :
    s'.jl_timing_counts = s.jl_timing_counts := by
  unfold _jl_timing_block_ctor at h
  simp only [ctor_start_eq] at h
  split at h
  · split at h
    · exact absurd h (by simp)
    · simp only [Except.ok.injEq] at h
      rw [← h]
  · simp only [Except.ok.injEq] at h
    rw [← h]

theorem destroy_counts (cfg : Build) (block : Nat) (t : Nat) (s s' : State)
    (h : _jl_timing_block_destroy cfg block t s = Except.ok s') :
    s'.jl_timing_counts =
      store s.jl_timing_counts (s.mem block).counts_ctx.owner
        (add64 (s.jl_timing_counts (s.mem block).counts_ctx.owner)
          (add64 (s.mem block).counts_ctx.total (sub64 t (s.mem block).counts_ctx.t0))) := by
  unfold _jl_timing_block_destroy at h
  split at h
  · exact absurd h (by simp)
  · rename_i c hc
    have hc' := stop_ok cfg _ c t hc
    simp only [store_same, _jl_timing_counts_destroy] at h
    split at h
    · exact absurd h (by simp)
    · split at h
      · split at h
        · exact absurd h (by simp)
        · simp only [Except.ok.injEq] at h
          rw [← h, hc']; rfl
      · simp only [Except.ok.injEq] at h
        rw [← h, hc']; rfl

/-! ## The enable mask and the counts view -/

theorem enable_flag_eq (m i : Nat) : jl_timing_enable_flag m i = (m.testBit i).toNat := by
  unfold jl_timing_enable_flag
  rw [Nat.and_one_is_mod, Nat.testBit_to_div_mod, Nat.shiftRight_eq_div_pow]
  rcases Nat.mod_two_eq_zero_or_one (m / 2 ^ i) with h | h <;> simp [h]

theorem view_fields (s s' : State) (h : countsView s = countsView s') :
    s.jl_timing_counts = s'.jl_timing_counts ∧ s.timing_stack = s'.timing_stack ∧
    (∀ a, (s.mem a).prev = (s'.mem a).prev) ∧
    (∀ a, (s.mem a).counts_ctx = (s'.mem a).counts_ctx) := by
  unfold countsView at h
  simp only [CountsView.mk.injEq] at h
  exact ⟨h.1, h.2.1, fun a => congrFun h.2.2.1 a, fun a => congrFun h.2.2.2 a⟩

theorem view_ext (s s' : State) (h1 : s.jl_timing_counts = s'.jl_timing_counts)
    (h2 : s.timing_stack = s'.timing_stack) (h3 : ∀ a, (s.mem a).prev = (s'.mem a).prev)
    (h4 : ∀ a, (s.mem a).counts_ctx = (s'.mem a).counts_ctx) :
    countsView s = countsView s' := by
  unfold countsView
  simp only [CountsView.mk.injEq]
  exact ⟨h1, h2, funext h3, funext h4⟩

theorem ctor_view (cfg : Build) (block : Nat) (owner : Int) (t : Nat) (s s' : State)
    (h : countsView s = countsView s') :
    (_jl_timing_block_ctor cfg block owner t s).map countsView =
      (_jl_timing_block_ctor cfg block owner t s').map countsView := by
  obtain ⟨h1, h2, h3, h4⟩ := view_fields s s' h
  unfold _jl_timing_block_ctor
  simp only [ctor_start_eq, store_same, store_store, h2, h4]
  by_cases h0 : s'.timing_stack = 0
  · simp only [h0, ne_eq, not_true_eq_false, if_false, Except.map]
    congr 1
    apply view_ext
    · exact h1
    · rfl
    · intro a; simp only [store]; split <;> simp [h3]
    · intro a; simp only [store]; split <;> simp [h4]
  · simp only [h0, ne_eq, not_false_eq_true, if_true]
    by_cases hb : s'.timing_stack = block
    · simp only [hb, store_same]
      cases _jl_timing_counts_stop cfg (created cfg (s'.mem block).counts_ctx owner t) t with
      | error e => rfl
      | ok p =>
        simp only [Except.map]
        congr 1
        apply view_ext
        · exact h1
        · rfl
        · intro a; simp only [store]; split <;> simp [h3]
        · intro a; simp only [store]; split <;> simp [h4]
    · simp only [store_ne _ _ _ _ hb, h4]
      cases _jl_timing_counts_stop cfg (s'.mem s'.timing_stack).counts_ctx t with
      | error e => rfl
      | ok p =>
        simp only [Except.map]
        congr 1
        apply view_ext
        · exact h1
        · rfl
        · intro a; simp only [store]; split <;> (try split) <;> simp [h3]
        · intro a; simp only [store]; split <;> (try split) <;> simp [h4]

theorem destroy_view (cfg : Build) (block : Nat) (t : Nat) (s s' : State)
    (h : countsView s = countsView s') :
    (_jl_timing_block_destroy cfg block t s).map countsView =
      (_jl_timing_block_destroy cfg block t s').map countsView := by
  obtain ⟨h1, h2, h3, h4⟩ := view_fields s s' h
  unfold _jl_timing_block_destroy
  simp only [store_same, h1, h2, h3, h4]
  cases _jl_timing_counts_stop cfg (s'.mem block).counts_ctx t with
  | error e => rfl
  | ok c =>
    simp only
    by_cases ha : cfg.JL_DEBUG_BUILD = true ∧ s'.timing_stack ≠ block
    · simp only [if_pos ha]
    · simp only [if_neg ha]
      by_cases h0 : (s'.mem block).prev = 0
      · simp only [h0, ne_eq, not_true_eq_false, if_false, Except.map]
        congr 1
        apply view_ext
        · rfl
        · rfl
        · intro a; simp only [store]; split <;> simp [h3]
        · intro a; simp only [store]; split <;> simp [h4]
      · simp only [h0, ne_eq, not_false_eq_true, if_true]
        by_cases hb : (s'.mem block).prev = block
        · simp only [hb, store_same]
          cases _jl_timing_counts_start cfg c t with
          | error e => rfl
          | ok p =>
            simp only [Except.map]
            congr 1
            apply view_ext
            · rfl
            · rfl
            · intro a; simp only [store]; split <;> simp [h3]
            · intro a; simp only [store]; split <;> simp [h4]
        · simp only [store_ne _ _ _ _ hb, h4]
          cases _jl_timing_counts_start cfg (s'.mem (s'.mem block).prev).counts_ctx t with
          | error e => rfl
          | ok p =>
            simp only [Except.map]
            congr 1
            apply view_ext
            · rfl
            · rfl
            · intro a; simp only [store]; split <;> (try split) <;> simp [h3]
            · intro a; simp only [store]; split <;> (try split) <;> simp [h4]

theorem tracy_ctor_view (cfg : Build) (block : Nat) (name : String) (enable : Nat) (s : State) :
    countsView (_TRACY_CTOR cfg block name enable s) = countsView s := by
  unfold _TRACY_CTOR
  cases cfg.USE_TRACY
  · rfl
  · simp only [if_true]
    apply view_ext
    · rfl
    · rfl
    · intro a; simp only [store]; split <;> simp [*]
    · intro a; simp only [store]; split <;> simp [*]

theorem map_view_cases (r r' : Except Fault State)
    (h : r.map countsView = r'.map countsView) :
    (∃ f, r = Except.error f ∧ r' = Except.error f) ∨
    (∃ x x', r = Except.ok x ∧ r' = Except.ok x' ∧ countsView x = countsView x') := by
  cases r with
  | error f =>
    cases r' with
    | error f' => left; simp only [Except.map, Except.error.injEq] at h; exact ⟨f, rfl, by rw [h]⟩
    | ok x' => simp [Except.map] at h
  | ok x =>
    cases r' with
    | error f' => simp [Except.map] at h
    | ok x' => right; simp only [Except.map, Except.ok.injEq] at h; exact ⟨x, x', rfl, rfl, h⟩

theorem stepOp_view (cfg : Build) (op : Op) (s s' : State) (hz : op.isZone = true)
    (h : countsView s = countsView s') :
    (stepOp cfg op s).map countsView = (stepOp cfg op s').map countsView := by
  cases op with
  | zone block subsystem event t =>
    simp only [stepOp, JL_TIMING]
    rcases map_view_cases _ _ (ctor_view cfg block (subsystem.val : Int) t s s' h) with
      ⟨f, e1, e2⟩ | ⟨x, x', e1, e2, hx⟩
    · rw [e1, e2]
    · rw [e1, e2]
      simp only [Except.map, tracy_ctor_view, hx]
  | destroy block t => exact destroy_view cfg block t s s' h
  | set_mask mask => simp [Op.isZone] at hz

theorem runOps_view (cfg : Build) (ops : List Op) :
    ∀ s s', countsView s = countsView s' →
      (runOps cfg ops s).map countsView
        = (runOps cfg (ops.filter Op.isZone) s').map countsView := by
  induction ops with
  | nil => intro s s' h; simp [runOps, Except.map, h]
  | cons op ops ih =>
    intro s s' h
    by_cases hz : op.isZone = true
    · simp only [List.filter_cons, hz, if_true, runOps]
      rcases map_view_cases _ _ (stepOp_view cfg op s s' hz h) with
        ⟨f, e1, e2⟩ | ⟨x, x', e1, e2, hx⟩
      · rw [e1, e2]
      · rw [e1, e2]; exact ih x x' hx
    · cases op with
      | set_mask mask =>
        simp only [List.filter_cons, Op.isZone, runOps, stepOp]
        exact ih _ s' (by rw [← h]; rfl)
      | zone block subsystem event t => simp [Op.isZone] at hz
      | destroy block t => simp [Op.isZone] at hz

theorem jl_timing_names_nodup : jl_timing_names.Nodup := by decide

theorem clear_mask_bits : ∀ i, i < 24 → ∀ j, j < 64 →
    Nat.testBit (2 ^ 64 - 1 - 1 <<< i) j = decide (j ≠ i) := by
  decide

theorem set_enable_at (name : String) (enabled mask i : Nat)
    (h : jl_timing_names[i]? = some name) :
    i < 24 ∧ jl_timing_set_enable name enabled mask =
      ((0 : Int), if enabled ≠ 0 then mask ||| (1 <<< i) else mask &&& (2 ^ 64 - 1 - (1 <<< i))) := by
  obtain ⟨hi, hget⟩ := List.getElem?_eq_some_iff.mp h
  have hidx : jl_timing_names.indexOf name = i := by
    rw [← hget]
    exact List.indexOf_getElem jl_timing_names_nodup i hi
  refine ⟨hi, ?_⟩
  unfold jl_timing_set_enable
  simp only [hidx, hi, if_true]

/-! ## Sums over the table along a run -/

theorem sub64_eq_emod (a b : Nat) (hb : b < 2 ^ 64) :
    (sub64 a b : Int) = ((a : Int) - (b : Int)) % 2 ^ 64 := by
  unfold sub64
  have hbm : b % 2 ^ 64 = b := Nat.mod_eq_of_lt hb
  rw [hbm]
  omega

theorem sum_range_store (c : Int → Nat) (k v : Nat) (n : Nat) :
    ((List.range n).map fun (i : Nat) => store c (k : Int) v (i : Int)).sum + (if k < n then c k else 0)
      = ((List.range n).map fun (i : Nat) => c (i : Int)).sum + (if k < n then v else 0) := by
  induction n with
  | zero => simp
  | succ n ih =>
    rw [List.sum_range_succ, List.sum_range_succ]
    by_cases hkn : k < n
    · have h1 : k < n + 1 := by omega
      have h2 : (n : Int) ≠ (k : Int) := by omega
      simp only [hkn, h1, if_true] at ih ⊢
      rw [store_ne _ _ _ _ h2]
      omega
    · by_cases hk : k = n
      · subst hk
        simp only [lt_irrefl, if_false, Nat.lt_succ_self, if_true, store_same] at ih ⊢
        omega
      · have h1 : ¬ k < n + 1 := by omega
        have h2 : (n : Int) ≠ (k : Int) := by omega
        simp only [hkn, h1, if_false] at ih ⊢
        rw [store_ne _ _ _ _ h2]
        omega

theorem tableSum_store (c : Int → Nat) (ow : Int) (v : Nat) (h0 : 0 ≤ ow)
    (h1 : ow < (JL_TIMING_LAST : Int)) :
    tableSum (store c ow v) + c ow = tableSum c + v := by
  obtain ⟨k, hk⟩ := Int.eq_ofNat_of_zero_le h0
  subst hk
  have hlt : k < JL_TIMING_LAST := by exact_mod_cast h1
  have := sum_range_store c k v JL_TIMING_LAST
  simp only [hlt, if_true] at this
  exact this

theorem heldSum_cons (mem : Nat → jl_timing_block_t) (a : Nat) (live : List Nat) :
    heldSum mem (a :: live) = (mem a).counts_ctx.total + heldSum mem live := by
  simp [heldSum]

theorem heldSum_congr (mem mem' : Nat → jl_timing_block_t) (live : List Nat)
    (h : ∀ a ∈ live, (mem' a).counts_ctx.total = (mem a).counts_ctx.total) :
    heldSum mem' live = heldSum mem live := by
  unfold heldSum
  congr 1
  apply List.map_congr_left
  intro a ha
  rw [h a ha]

theorem sum_increase (c c' : Int → Nat) (n : Nat) :
    (((List.range n).map fun (i : Nat) => sub64 (c' (i : Int)) (c (i : Int))).sum
        + ((List.range n).map fun (i : Nat) => c (i : Int)).sum) % 2 ^ 64
      = ((List.range n).map fun (i : Nat) => c' (i : Int)).sum % 2 ^ 64 := by
  induction n with
  | zero => simp
  | succ n ih =>
    rw [List.sum_range_succ, List.sum_range_succ, List.sum_range_succ]
    have hx : (sub64 (c' (n : Int)) (c (n : Int)) + c (n : Int)) % 2 ^ 64
        = c' (n : Int) % 2 ^ 64 := by
      unfold sub64
      omega
    omega

theorem pushed_held (cfg : Build) (s : State) (top : Nat) (rest : List Nat) (block : Nat)
    (owner : Int) (t : Nat) (hinv : Inv cfg s (top :: rest)) (hb0 : block ≠ 0)
    (hfresh : block ∉ top :: rest) :
    (heldSum (pushed cfg block owner t s).mem (block :: top :: rest)) % 2 ^ 64 =
      (heldSum s.mem (top :: rest) + sub64 t (s.mem top).counts_ctx.t0) % 2 ^ 64 := by
  have hne := inv_top_ne cfg s (top :: rest) block hinv hb0 hfresh
  obtain ⟨hchain, hnodup, _⟩ := hinv
  simp only [IsChain] at hchain
  have htop : s.timing_stack = top := hchain.1
  have ht0 : s.timing_stack ≠ 0 := by rw [htop]; exact hchain.2.1
  have hnd := List.nodup_cons.mp hnodup
  have hrest : heldSum (pushed cfg block owner t s).mem rest = heldSum s.mem rest := by
    apply heldSum_congr
    intro a ha
    have hab : a ≠ block := fun h => hfresh (h ▸ List.mem_cons_of_mem top ha)
    have hat : a ≠ s.timing_stack := by rw [htop]; exact fun h => hnd.1 (h ▸ ha)
    rw [pushed_mem_other cfg block owner t s a hab hat]
  have hmt := pushed_mem_top cfg block owner t s ht0
  rw [htop] at hmt
  rw [heldSum_cons, heldSum_cons, heldSum_cons, hrest, hmt,
    pushed_mem_block cfg block owner t s hne]
  simp only [stopped, created, add64]
  omega

theorem popped_held (cfg : Build) (s : State) (live : List Nat) (block : Nat) (t : Nat)
    (hinv : Inv cfg s (block :: live))
    (h0 : 0 ≤ (s.mem block).counts_ctx.owner)
    (h1 : (s.mem block).counts_ctx.owner < (JL_TIMING_LAST : Int)) :
    (tableSum (popped cfg block t s).jl_timing_counts
        + heldSum (popped cfg block t s).mem live) % 2 ^ 64 =
      (tableSum s.jl_timing_counts + heldSum s.mem (block :: live)
        + sub64 t (s.mem block).counts_ctx.t0) % 2 ^ 64 := by
  have hnd := List.nodup_cons.mp hinv.2.1
  have hrest : heldSum (popped cfg block t s).mem live = heldSum s.mem live :=
    heldSum_congr _ _ _ fun a ha =>
      (popped_owner_total cfg block t s a (fun h => hnd.1 (h ▸ ha))).2
  have hc : (popped cfg block t s).jl_timing_counts =
      store s.jl_timing_counts (s.mem block).counts_ctx.owner
        (add64 (s.jl_timing_counts (s.mem block).counts_ctx.owner)
          (add64 (s.mem block).counts_ctx.total (sub64 t (s.mem block).counts_ctx.t0))) := rfl
  have hs := tableSum_store s.jl_timing_counts (s.mem block).counts_ctx.owner
    (add64 (s.jl_timing_counts (s.mem block).counts_ctx.owner)
      (add64 (s.mem block).counts_ctx.total (sub64 t (s.mem block).counts_ctx.t0))) h0 h1
  rw [hrest, hc, heldSum_cons]
  simp only [add64] at hs ⊢
  omega

theorem run_children (cfg : Build) (a : Nat) (mid : List Event) :
    ∀ (s : State) (l l' : List Nat) (last : Nat), Inv cfg s (l ++ [a]) →
      nesting l mid = some l' → (∀ e ∈ mid, e.block ≠ a) →
      (∀ top rest, l ++ [a] = top :: rest → (s.mem top).counts_ctx.t0 = last) →
      (∀ x ∈ l ++ [a], 0 ≤ (s.mem x).counts_ctx.owner ∧
        (s.mem x).counts_ctx.owner < (JL_TIMING_LAST : Int)) →
      (∀ e ∈ mid, ∀ b o t, e = Event.enter b o t → 0 ≤ o ∧ o < (JL_TIMING_LAST : Int)) →
      ∃ s' last', run cfg mid s = Except.ok s' ∧ Inv cfg s' (l' ++ [a]) ∧
        (∀ top rest, l' ++ [a] = top :: rest → (s'.mem top).counts_ctx.t0 = last') ∧
        (∀ x ∈ l' ++ [a], 0 ≤ (s'.mem x).counts_ctx.owner ∧
          (s'.mem x).counts_ctx.owner < (JL_TIMING_LAST : Int)) ∧
        (tableSum s'.jl_timing_counts + heldSum s'.mem (l' ++ [a])) % 2 ^ 64 =
          (tableSum s.jl_timing_counts + heldSum s.mem (l ++ [a]) + sub64 last' last) % 2 ^ 64 := by
  induction mid with
  | nil =>
    intro s l l' last hinv hn _ hlast hown _
    simp only [nesting, Option.some.injEq] at hn
    subst hn
    refine ⟨s, last, rfl, hinv, hlast, hown, ?_⟩
    unfold sub64
    omega
  | cons e mid ih =>
    intro s l l' last hinv hn hfresh hlast hown hrange
    have hfresh' : ∀ e' ∈ mid, e'.block ≠ a := fun e' he' =>
      hfresh e' (List.mem_cons_of_mem e he')
    have hrange' : ∀ e' ∈ mid, ∀ b o t, e' = Event.enter b o t →
        0 ≤ o ∧ o < (JL_TIMING_LAST : Int) := fun e' he' =>
      hrange e' (List.mem_cons_of_mem e he')
    cases e with
    | enter block owner t =>
      simp only [nesting] at hn
      split at hn
      · rename_i hc
        have hba : block ≠ a := hfresh _ (List.mem_cons_self _ _)
        have hnot : block ∉ l ++ [a] := by
          simp only [List.mem_append, List.mem_singleton, not_or]
          exact ⟨hc.2, hba⟩
        have hne := inv_top_ne cfg s (l ++ [a]) block hinv hc.1 hnot
        have hinv' := inv_pushed cfg s (l ++ [a]) block owner t hinv hc.1 hnot
        have hro := hrange _ (List.mem_cons_self _ _) block owner t rfl
        have hown' : ∀ x ∈ (block :: l) ++ [a],
            0 ≤ ((pushed cfg block owner t s).mem x).counts_ctx.owner ∧
            ((pushed cfg block owner t s).mem x).counts_ctx.owner < (JL_TIMING_LAST : Int) := by
          intro x hx
          by_cases hxb : x = block
          · rw [hxb, pushed_mem_block cfg block owner t s hne]
            exact hro
          · rw [pushed_owner cfg block owner t s x hxb]
            refine hown x ?_
            simpa [hxb] using hx
        obtain ⟨s', last', hrun, hinv'', hlast', hown'', hsum⟩ :=
          ih (pushed cfg block owner t s) (block :: l) l' t hinv' hn hfresh'
            (pushed_t0 cfg s (l ++ [a]) block owner t hinv hc.1 hnot) hown' hrange'
        refine ⟨s', last', ?_, hinv'', hlast', hown'', ?_⟩
        · simp only [run, step, ctor_of_inv cfg s (l ++ [a]) block owner t hinv hc.1 hnot, hrun]
        · have hcs : (pushed cfg block owner t s).jl_timing_counts = s.jl_timing_counts := rfl
          rw [hcs] at hsum
          cases hl : l ++ [a] with
          | nil => simp at hl
          | cons top rest =>
            rw [hl] at hinv hnot
            have hstep := pushed_held cfg s top rest block owner t hinv hc.1 hnot
            have ht0 := hlast top rest hl
            rw [ht0] at hstep
            rw [List.cons_append, hl] at hsum
            unfold sub64 at hsum hstep ⊢
            omega
      · exact absurd hn (by simp)
    | exit block t =>
      cases l with
      | nil => simp [nesting] at hn
      | cons top rest =>
        simp only [nesting] at hn
        split at hn
        · rename_i hc
          subst hc
          rw [List.cons_append] at hinv hlast hown
          have hob := hown block (List.mem_cons_self _ _)
          have hinv' := inv_popped cfg s (rest ++ [a]) block t hinv
          have hown' : ∀ x ∈ rest ++ [a],
              0 ≤ ((popped cfg block t s).mem x).counts_ctx.owner ∧
              ((popped cfg block t s).mem x).counts_ctx.owner < (JL_TIMING_LAST : Int) := by
            intro x hx
            have hnd := List.nodup_cons.mp hinv.2.1
            have hxb : x ≠ block := fun h => hnd.1 (h ▸ hx)
            rw [(popped_owner_total cfg block t s x hxb).1]
            exact hown x (List.mem_cons_of_mem _ hx)
          obtain ⟨s', last', hrun, hinv'', hlast', hown'', hsum⟩ :=
            ih (popped cfg block t s) rest l' t hinv' hn hfresh'
              (popped_t0 cfg s (rest ++ [a]) block t hinv) hown' hrange'
          refine ⟨s', last', ?_, hinv'', hlast', hown'', ?_⟩
          · simp only [run, step, destroy_of_inv cfg s (rest ++ [a]) block t hinv, hrun]
          · have hstep := popped_held cfg s (rest ++ [a]) block t hinv hob.1 hob.2
            have ht0 := hlast block (rest ++ [a]) rfl
            rw [ht0] at hstep
            rw [List.cons_append]
            unfold sub64 at hsum hstep ⊢
            omega
        · exact absurd hn (by simp)

theorem ownersInTable_spec (es : List Event) (h : ownersInTable es = true) :
    ∀ e ∈ es, ∀ b o t, e = Event.enter b o t → 0 ≤ o ∧ o < (JL_TIMING_LAST : Int) := by
  induction es with
  | nil => intro e he; simp at he
  | cons e0 es ih =>
    intro e he b o t heq
    cases e0 with
    | enter b0 o0 t0 =>
      simp only [ownersInTable, Bool.and_eq_true, decide_eq_true_eq] at h
      rcases List.mem_cons.mp he with h1 | h1
      · rw [heq] at h1
        cases h1
        exact h.1
      · exact ih h.2 e h1 b o t heq
    | exit b0 t0 =>
      simp only [ownersInTable] at h
      rcases List.mem_cons.mp he with h1 | h1
      · rw [heq] at h1
        cases h1
      · exact ih h e h1 b o t heq

theorem run_append (cfg : Build) (p q : List Event) :
    ∀ s s', run cfg p s = Except.ok s' → run cfg (p ++ q) s = run cfg q s' := by
  induction p with
  | nil =>
    intro s s' h
    simp only [run, Except.ok.injEq] at h
    rw [List.nil_append, h]
  | cons e p ih =>
    intro s s' h
    simp only [List.cons_append, run] at h ⊢
    cases hstep : step cfg e s with
    | error f => rw [hstep] at h; exact absurd h (by simp)
    | ok s1 =>
      rw [hstep] at h
      exact ih s1 s' h

/-! ## The claims -/

/-- C1: exclusive time.  Along a properly nested sequence of zone enters and
exits that starts and ends with the empty stack, with clock readings that never
go back and no 64-bit overflow, the entry of every owner `o` in
`jl_timing_counts` grows by exactly the time during which the innermost open
zone had owner `o`; the time under a nested child is not added to the parent. -/
theorem counts_grow_by_exclusive_time (cfg : Build) (s : State) (es : List Event)
    (hs : s.timing_stack = 0) (hn : nesting [] es = some [])
    (hclock : monotoneClock 0 es = true)
    (hbound : ∀ o, s.jl_timing_counts o + exclusive o [] 0 es < 2 ^ 64) :
    ∃ s', run cfg es s = Except.ok s' ∧ s'.timing_stack = 0 ∧
      ∀ o, s'.jl_timing_counts o = s.jl_timing_counts o + exclusive o [] 0 es := by
  obtain ⟨s', hrun, hinv, hfin⟩ := run_exclusive cfg es s [] [] 0 (inv_empty cfg s hs) hn hclock
    (fun _ _ h => by simp at h) (fun o => by simpa [pending, owners] using hbound o)
  refine ⟨s', hrun, hinv.1, ?_⟩
  intro o
  simpa [pending, owners] using hfin o

/-- Witness of C1: a zone of owner 3 with a nested zone of owner 2. -/
theorem counts_grow_by_exclusive_time_witness :
    ∃ s', run ⟨true, true⟩
        [Event.enter 1 3 100, Event.enter 2 2 104, Event.exit 2 109, Event.exit 1 112] idle
        = Except.ok s' ∧ s'.timing_stack = 0 ∧
      ∀ o, s'.jl_timing_counts o = idle.jl_timing_counts o + exclusive o [] 0
        [Event.enter 1 3 100, Event.enter 2 2 104, Event.exit 2 109, Event.exit 1 112] :=
  counts_grow_by_exclusive_time ⟨true, true⟩ idle
    [Event.enter 1 3 100, Event.enter 2 2 104, Event.exit 2 109, Event.exit 1 112]
    rfl (by decide) (by decide)
    (fun o => by
      by_cases h3 : o = 3
      · subst h3; decide
      · by_cases h2 : o = 2
        · subst h2; decide
        · simp [exclusive, idle, h3, h2, Ne.symm h3, Ne.symm h2])

/-- C2: the two-level scenario.  From the empty stack, enter zone A of owner
PARSING, enter the nested zone B of owner LOWERING, exit B five units after it
was entered and exit A three units after that; the clock advances only where
the scenario says so, so B is entered at the reading `t` at which A was
entered and A is open for 8 units in all.  Then the entry of LOWERING has
grown by 5 and the entry of PARSING by 3 (not 8): they are the old entries
plus 5 and plus 3 as `uint64_t` additions, hence exactly 5 and 3 more when the
entries do not wrap; no other entry of `jl_timing_counts` has changed. -/
theorem two_level_scenario (cfg : Build) (s : State) (a b t : Nat)
    (hs : s.timing_stack = 0) (ha : a ≠ 0) (hb : b ≠ 0) (hab : a ≠ b) :
    ∃ s', run cfg
        [Event.enter a (jl_timing_owners.JL_TIMING_PARSING.val : Int) t,
         Event.enter b (jl_timing_owners.JL_TIMING_LOWERING.val : Int) t,
         Event.exit b (add64 t 5),
         Event.exit a (add64 (add64 t 5) 3)] s = Except.ok s' ∧
      s'.jl_timing_counts (jl_timing_owners.JL_TIMING_LOWERING.val : Int)
        = add64 (s.jl_timing_counts (jl_timing_owners.JL_TIMING_LOWERING.val : Int)) 5 ∧
      s'.jl_timing_counts (jl_timing_owners.JL_TIMING_PARSING.val : Int)
        = add64 (s.jl_timing_counts (jl_timing_owners.JL_TIMING_PARSING.val : Int)) 3 ∧
      (s.jl_timing_counts (jl_timing_owners.JL_TIMING_LOWERING.val : Int) + 5 < 2 ^ 64 →
        s'.jl_timing_counts (jl_timing_owners.JL_TIMING_LOWERING.val : Int)
          = s.jl_timing_counts (jl_timing_owners.JL_TIMING_LOWERING.val : Int) + 5) ∧
      (s.jl_timing_counts (jl_timing_owners.JL_TIMING_PARSING.val : Int) + 3 < 2 ^ 64 →
        s'.jl_timing_counts (jl_timing_owners.JL_TIMING_PARSING.val : Int)
          = s.jl_timing_counts (jl_timing_owners.JL_TIMING_PARSING.val : Int) + 3) ∧
      ∀ o : Int, o ≠ (jl_timing_owners.JL_TIMING_PARSING.val : Int) →
        o ≠ (jl_timing_owners.JL_TIMING_LOWERING.val : Int) →
        s'.jl_timing_counts o = s.jl_timing_counts o := by
  have i0 := inv_empty cfg s hs
  have e1 := ctor_of_inv cfg s [] a (jl_timing_owners.JL_TIMING_PARSING.val : Int) t i0 ha
    (by simp)
  have i1 := inv_pushed cfg s [] a (jl_timing_owners.JL_TIMING_PARSING.val : Int) t i0 ha
    (by simp)
  have hba : b ∉ [a] := by simp [Ne.symm hab]
  have e2 := ctor_of_inv cfg _ [a] b (jl_timing_owners.JL_TIMING_LOWERING.val : Int) t i1 hb hba
  have i2 := inv_pushed cfg _ [a] b (jl_timing_owners.JL_TIMING_LOWERING.val : Int) t i1 hb hba
  have e3 := destroy_of_inv cfg _ [a] b (add64 t 5) i2
  have i3 := inv_popped cfg _ [a] b (add64 t 5) i2
  have e4 := destroy_of_inv cfg _ [] a (add64 (add64 t 5) 3) i3
  have k1 : sub64 t t = 0 := by unfold sub64; omega
  have k2 : sub64 (add64 t 5) t = 5 := by unfold sub64 add64; omega
  have k3 : sub64 (add64 (add64 t 5) 3) (add64 t 5) = 3 := by unfold sub64 add64; omega
  have k4 : ∀ n, n < 2 ^ 64 → add64 0 n = n := fun n hn => by unfold add64; omega
  have hval : ∀ o : Int,
      (popped cfg a (add64 (add64 t 5) 3) (popped cfg b (add64 t 5)
        (pushed cfg b (jl_timing_owners.JL_TIMING_LOWERING.val : Int) t
          (pushed cfg a (jl_timing_owners.JL_TIMING_PARSING.val : Int) t s)))).jl_timing_counts o =
      if o = 3 then add64 (s.jl_timing_counts 3) 3
      else if o = 2 then add64 (s.jl_timing_counts 2) 5 else s.jl_timing_counts o := by
    intro o
    simp [popped, pushed, hs, ha, hb, hab, Ne.symm hab, store, stopped, started, created,
      jl_timing_owners.val, k1, k2, k3, k4]
  refine ⟨popped cfg a (add64 (add64 t 5) 3) (popped cfg b (add64 t 5)
    (pushed cfg b (jl_timing_owners.JL_TIMING_LOWERING.val : Int) t
      (pushed cfg a (jl_timing_owners.JL_TIMING_PARSING.val : Int) t s))), ?_, ?_, ?_, ?_, ?_, ?_⟩
  · simp only [run, step, e1, e2, e3, e4]
  · rw [hval]; simp [jl_timing_owners.val]
  · rw [hval]; simp [jl_timing_owners.val]
  · intro h; rw [hval]; simp [jl_timing_owners.val]; exact add64_of_lt _ _ h
  · intro h; rw [hval]; simp [jl_timing_owners.val]; exact add64_of_lt _ _ h
  · intro o h3 h2
    simp only [jl_timing_owners.val, Nat.cast_ofNat] at h3 h2
    rw [hval]; simp [h3, h2]

/-- Witness of C2: the scenario from the idle state, in a debug build. -/
theorem two_level_scenario_witness :
    ∃ s', run ⟨true, true⟩
        [Event.enter 1 (jl_timing_owners.JL_TIMING_PARSING.val : Int) 100,
         Event.enter 2 (jl_timing_owners.JL_TIMING_LOWERING.val : Int) 100,
         Event.exit 2 (add64 100 5),
         Event.exit 1 (add64 (add64 100 5) 3)] idle = Except.ok s' ∧
      s'.jl_timing_counts (jl_timing_owners.JL_TIMING_LOWERING.val : Int)
        = add64 (idle.jl_timing_counts (jl_timing_owners.JL_TIMING_LOWERING.val : Int)) 5 ∧
      s'.jl_timing_counts (jl_timing_owners.JL_TIMING_PARSING.val : Int)
        = add64 (idle.jl_timing_counts (jl_timing_owners.JL_TIMING_PARSING.val : Int)) 3 ∧
      (idle.jl_timing_counts (jl_timing_owners.JL_TIMING_LOWERING.val : Int) + 5 < 2 ^ 64 →
        s'.jl_timing_counts (jl_timing_owners.JL_TIMING_LOWERING.val : Int)
          = idle.jl_timing_counts (jl_timing_owners.JL_TIMING_LOWERING.val : Int) + 5) ∧
      (idle.jl_timing_counts (jl_timing_owners.JL_TIMING_PARSING.val : Int) + 3 < 2 ^ 64 →
        s'.jl_timing_counts (jl_timing_owners.JL_TIMING_PARSING.val : Int)
          = idle.jl_timing_counts (jl_timing_owners.JL_TIMING_PARSING.val : Int) + 3) ∧
      ∀ o : Int, o ≠ (jl_timing_owners.JL_TIMING_PARSING.val : Int) →
        o ≠ (jl_timing_owners.JL_TIMING_LOWERING.val : Int) →
        s'.jl_timing_counts o = idle.jl_timing_counts o :=
  two_level_scenario ⟨true, true⟩ idle 1 2 100 rfl (by decide) (by decide) (by decide)

/-- C3: along a properly nested sequence of constructor and destructor calls
that starts from the empty stack, after every prefix the prev-chain from
`timing_stack` has as many records as the prefix has enters not yet matched by
an exit, and after the whole sequence `timing_stack` is `NULL` again. -/
theorem stack_depth_is_unmatched_enters (cfg : Build) (s : State) (es : List Event)
    (hs : s.timing_stack = 0) (hn : nesting [] es = some []) :
    (∀ p q, es = p ++ q →
      ∃ s' chain, run cfg p s = Except.ok s' ∧ IsChain s'.mem s'.timing_stack chain ∧
        chain.length + exits p = enters p) ∧
    ∃ s', run cfg es s = Except.ok s' ∧ s'.timing_stack = 0 := by
  constructor
  · intro p q hpq
    rw [hpq, nesting_append] at hn
    cases hp : nesting [] p with
    | none => rw [hp] at hn; simp at hn
    | some live =>
      obtain ⟨s', hrun, hinv⟩ := run_of_inv cfg p s [] live (inv_empty cfg s hs) hp
      refine ⟨s', live, hrun, hinv.1, ?_⟩
      simpa using nesting_length p [] live hp
  · obtain ⟨s', hrun, hinv⟩ := run_of_inv cfg es s [] [] (inv_empty cfg s hs) hn
    exact ⟨s', hrun, hinv.1⟩

/-- Witness of C3: a zone with one nested zone, run from the idle state. -/
theorem stack_depth_is_unmatched_enters_witness :
    (∀ p q, [Event.enter 1 3 100, Event.enter 2 2 100, Event.exit 2 105, Event.exit 1 108]
        = p ++ q →
      ∃ s' chain, run ⟨true, true⟩ p idle = Except.ok s' ∧
        IsChain s'.mem s'.timing_stack chain ∧ chain.length + exits p = enters p) ∧
    ∃ s', run ⟨true, true⟩
        [Event.enter 1 3 100, Event.enter 2 2 100, Event.exit 2 105, Event.exit 1 108] idle
      = Except.ok s' ∧ s'.timing_stack = 0 :=
  stack_depth_is_unmatched_enters ⟨true, true⟩ idle
    [Event.enter 1 3 100, Event.enter 2 2 100, Event.exit 2 105, Event.exit 1 108] rfl (by decide)

/-- C4: in a debug build, in every state reached from the empty stack by zone
enters and LIFO zone exits, when the stack is not empty the record on top has
`running = 1` and every other record of the prev-chain has `running = 0`. -/
theorem single_running_zone (cfg : Build) (s : State) (es : List Event) (live : List Nat)
    (hd : cfg.JL_DEBUG_BUILD = true) (hs : s.timing_stack = 0)
    (hn : nesting [] es = some live) :
    ∃ s', run cfg es s = Except.ok s' ∧ IsChain s'.mem s'.timing_stack live ∧
      (s'.timing_stack ≠ 0 →
        (s'.mem s'.timing_stack).counts_ctx.running = 1 ∧
        ∀ a ∈ live, a ≠ s'.timing_stack → (s'.mem a).counts_ctx.running = 0) := by
  obtain ⟨s', hrun, hchain, hnodup, hflags⟩ := run_of_inv cfg es s [] live (inv_empty cfg s hs) hn
  refine ⟨s', hrun, hchain, ?_⟩
  intro h0
  cases live with
  | nil => exact absurd hchain h0
  | cons top rest =>
    have hf := hflags hd
    have htop : s'.timing_stack = top := hchain.1
    rw [htop]
    refine ⟨hf.1, ?_⟩
    intro a ha hne
    have : a ∈ rest := by simpa [hne] using ha
    exact hf.2 a this

/-- Witness of C4: two zones open, one inside the other, in a debug build. -/
theorem single_running_zone_witness :
    ∃ s', run ⟨true, false⟩ [Event.enter 1 3 100, Event.enter 2 2 104] idle = Except.ok s' ∧
      IsChain s'.mem s'.timing_stack [2, 1] ∧
      (s'.timing_stack ≠ 0 →
        (s'.mem s'.timing_stack).counts_ctx.running = 1 ∧
        ∀ a ∈ [2, 1], a ≠ s'.timing_stack → (s'.mem a).counts_ctx.running = 0) :=
  single_running_zone ⟨true, false⟩ idle [Event.enter 1 3 100, Event.enter 2 2 104] [2, 1]
    rfl rfl (by decide)

/-- C5, as stated, fails: in the run below the clock reading of the last exit
is behind the reading of its enter, the record's total wraps to `2 ^ 64 - 2`,
and the entry of owner 3 goes from 10 down to 8. -/
theorem counts_entry_can_decrease :
    (run ⟨false, false⟩ [Event.enter 1 3 0, Event.exit 1 10, Event.enter 1 3 100] idle).map
        (fun s => s.jl_timing_counts 3) = Except.ok 10 ∧
    (run ⟨false, false⟩
        [Event.enter 1 3 0, Event.exit 1 10, Event.enter 1 3 100, Event.exit 1 98] idle).map
        (fun s => s.jl_timing_counts 3) = Except.ok 8 ∧
    ¬ ∀ (cfg : Build) (e : Event) (s s' : State), step cfg e s = Except.ok s' →
        ∀ o, s.jl_timing_counts o ≤ s'.jl_timing_counts o := by
  refine ⟨rfl, rfl, ?_⟩
  intro h
  have h1 := h ⟨false, false⟩ (Event.exit 1 98)
    (pushed ⟨false, false⟩ 1 3 100 (popped ⟨false, false⟩ 1 10 (pushed ⟨false, false⟩ 1 3 0 idle)))
    _ rfl 3
  revert h1
  decide

/-- C5, amended: a zone enter leaves every entry of `jl_timing_counts` as it
is; a zone exit changes only the entry of the record's owner, to the old entry
plus the record's final total `total + (t - t0)` as `uint64_t` additions, and
leaves every other entry as it is; so after an enter, and after an exit whose
addition to the table does not wrap (the entry of the record's owner plus the
record's final total is below `2 ^ 64`), every entry is greater than or equal
to its value before. -/
theorem counts_monotone_without_wrap (cfg : Build) (e : Event) (s s' : State)
    (h : step cfg e s = Except.ok s') :
    (∀ block owner t, e = Event.enter block owner t →
      ∀ o, s'.jl_timing_counts o = s.jl_timing_counts o) ∧
    (∀ block t, e = Event.exit block t →
      s'.jl_timing_counts (s.mem block).counts_ctx.owner =
        add64 (s.jl_timing_counts (s.mem block).counts_ctx.owner)
          (add64 (s.mem block).counts_ctx.total (sub64 t (s.mem block).counts_ctx.t0)) ∧
      ∀ o, o ≠ (s.mem block).counts_ctx.owner →
        s'.jl_timing_counts o = s.jl_timing_counts o) ∧
    ((∀ block t, e = Event.exit block t →
        s.jl_timing_counts (s.mem block).counts_ctx.owner
          + add64 (s.mem block).counts_ctx.total (sub64 t (s.mem block).counts_ctx.t0)
          < 2 ^ 64) →
      ∀ o, s.jl_timing_counts o ≤ s'.jl_timing_counts o) := by
  cases e with
  | enter block owner t =>
    have hc := ctor_counts cfg block owner t s s' h
    refine ⟨?_, ?_, ?_⟩
    · intro _ _ _ _ o
      rw [hc]
    · intro b t' he
      cases he
    · intro _ o
      rw [hc]
  | exit block t =>
    have hd := destroy_counts cfg block t s s' h
    refine ⟨?_, ?_, ?_⟩
    · intro b o t' he
      cases he
    · intro b t' he
      cases he
      refine ⟨?_, ?_⟩
      · rw [hd, store_same]
      · intro o ho
        rw [hd, store_ne _ _ _ _ ho]
    · intro hwrap o
      rw [hd]
      by_cases ho : o = (s.mem block).counts_ctx.owner
      · subst ho
        rw [store_same, add64_of_lt _ _ (hwrap block t rfl)]
        omega
      · rw [store_ne _ _ _ _ ho]

/-- Witness of C5 amended: the exit at 105 of the zone of owner 3 entered at
100 adds 5 to the entry of owner 3 and changes no other entry, and the enter at
104 of a nested zone changes no entry. -/
theorem counts_monotone_without_wrap_witness :
    step ⟨true, true⟩ (Event.exit 1 105) one_open
      = Except.ok (popped ⟨true, true⟩ 1 105 one_open) ∧
    (popped ⟨true, true⟩ 1 105 one_open).jl_timing_counts 3 = 5 ∧
    (∀ o, o ≠ (one_open.mem 1).counts_ctx.owner →
      (popped ⟨true, true⟩ 1 105 one_open).jl_timing_counts o = one_open.jl_timing_counts o) ∧
    (∀ o, one_open.jl_timing_counts o
      ≤ (popped ⟨true, true⟩ 1 105 one_open).jl_timing_counts o) ∧
    ∀ o, two_open.jl_timing_counts o = one_open.jl_timing_counts o :=
  ⟨rfl, rfl,
   ((counts_monotone_without_wrap ⟨true, true⟩ (Event.exit 1 105) one_open
      (popped ⟨true, true⟩ 1 105 one_open) rfl).2.1 1 105 rfl).2,
   (counts_monotone_without_wrap ⟨true, true⟩ (Event.exit 1 105) one_open
      (popped ⟨true, true⟩ 1 105 one_open) rfl).2.2
    (fun block t h => by
      cases h
      decide),
   (counts_monotone_without_wrap ⟨true, true⟩ (Event.enter 2 2 104) one_open two_open
      (ctor_eq ⟨true, true⟩ 2 2 104 one_open (by decide) (fun _ _ => by decide))).1
    2 2 104 rfl⟩

/-- C6: the constructor and the destructor of the suspend guard leave
`jl_timing_counts`, the stack pointer, every zone record (hence every
prev-chain), the enable mask and the regions of the profiler as they are; the
constructor sets the field `ct` of the guard. -/
theorem suspend_frame (cfg : Build) (suspend : jl_timing_suspend_t) (subsystem : String)
    (ct : jl_task_t) (s : State) :
    let r := _jl_timing_suspend_ctor cfg suspend subsystem ct s
    let s' := _jl_timing_suspend_destroy cfg suspend s
    (r.1.ct = ct ∧ r.2.jl_timing_counts = s.jl_timing_counts ∧
      r.2.timing_stack = s.timing_stack ∧ r.2.mem = s.mem ∧
      r.2.jl_timing_enable_mask = s.jl_timing_enable_mask ∧ r.2.tracy.log = s.tracy.log ∧
      ∀ chain, IsChain r.2.mem r.2.timing_stack chain ↔ IsChain s.mem s.timing_stack chain) ∧
    (s'.jl_timing_counts = s.jl_timing_counts ∧
      s'.timing_stack = s.timing_stack ∧ s'.mem = s.mem ∧
      s'.jl_timing_enable_mask = s.jl_timing_enable_mask ∧ s'.tracy.log = s.tracy.log ∧
      ∀ chain, IsChain s'.mem s'.timing_stack chain ↔ IsChain s.mem s.timing_stack chain) := by
  unfold _jl_timing_suspend_ctor _jl_timing_suspend_destroy TracyCFiberEnter
  cases cfg.USE_TRACY <;> simp

/-- C7, as stated, fails: the task `task` runs with its own fiber label, opens
a suspend guard for `GC` and inside it a second guard for `INFERENCE`.  Before
the inner guard the label is `GC`; after the inner guard is released the label
is `task`, not `GC`. -/
theorem suspend_release_is_not_previous_label :
    (_jl_timing_suspend_ctor ⟨false, true⟩ ⟨⟨""⟩⟩ "GC" ⟨"task"⟩
        { idle with tracy := { fiber := "task", log := [] } }).2.tracy.fiber = "GC" ∧
    (suspend_scope ⟨false, true⟩ "INFERENCE" ⟨"task"⟩ id
      (_jl_timing_suspend_ctor ⟨false, true⟩ ⟨⟨""⟩⟩ "GC" ⟨"task"⟩
        { idle with tracy := { fiber := "task", log := [] } }).2).tracy.fiber = "task" ∧
    ¬ ∀ (cfg : Build) (subsystem : String) (ct : jl_task_t) (s : State),
        (suspend_scope cfg subsystem ct id s).tracy.fiber = s.tracy.fiber := by
  refine ⟨rfl, rfl, ?_⟩
  intro h
  have h1 := h ⟨false, true⟩ "INFERENCE" ⟨"task"⟩
    (_jl_timing_suspend_ctor ⟨false, true⟩ ⟨⟨""⟩⟩ "GC" ⟨"task"⟩
      { idle with tracy := { fiber := "task", log := [] } }).2
  revert h1
  decide

/-- C7, amended: when the trace back-end is compiled in, after a suspend guard
is released the current fiber label is `ct->name`, the name of the task the
guard was created with, whatever the block did in between and whatever label
was current before; so the label is again the previous one exactly when the
previous one was `ct->name`.  Without the trace back-end the guard changes no
label. -/
theorem suspend_release_label (cfg : Build) (subsystem : String) (ct : jl_task_t)
    (body : State → State) (s : State) :
    (suspend_scope cfg subsystem ct body s).tracy.fiber =
        (if cfg.USE_TRACY then ct.name else (body s).tracy.fiber) ∧
    ((suspend_scope cfg subsystem ct id s).tracy.fiber = s.tracy.fiber ↔
        (cfg.USE_TRACY = true → s.tracy.fiber = ct.name)) := by
  unfold suspend_scope _jl_timing_suspend_ctor _jl_timing_suspend_destroy TracyCFiberEnter
  cases cfg.USE_TRACY <;> simp [eq_comm]

/-- C8: the enable gate is a pure bit test.  The flag `(mask >> i) & 1` is 1
exactly when bit `i` of the mask is set and 0 otherwise, and two masks that
differ at most in bit `X` give the same flag for every `Y ≠ X`.  This flag is
what `JL_TIMING` hands to the trace back-end: with the trace back-end compiled
in, the statement `JL_TIMING(subsystem, event)` returns with the handle of the
record holding the name `event` and, as `active`, the flag of the owner in the
mask of the state, which is 1 exactly when the bit of the owner is set; the
profiler receives the region exactly in that case; and with a mask `mask'`
that differs at most in the bit of another owner `X` the statement yields the
same handle and the same profiler state. -/
theorem enable_flag_is_bit_test (cfg : Build) (block : Nat) (subsystem : jl_timing_owners)
    (event : String) (t : Nat) (s : State) (mask' X : Nat)
    (htracy : cfg.USE_TRACY = true)
    (hne : s.timing_stack ≠ block)
    (hrun : cfg.JL_DEBUG_BUILD = true → s.timing_stack ≠ 0 →
      (s.mem s.timing_stack).counts_ctx.running ≠ 0)
    (hX : X ≠ subsystem.val)
    (hdiff : ∀ j, j ≠ X → mask'.testBit j = s.jl_timing_enable_mask.testBit j) :
    (∀ m i, (jl_timing_enable_flag m i = 1 ↔ m.testBit i = true) ∧
      (jl_timing_enable_flag m i = 0 ↔ m.testBit i = false)) ∧
    (∀ m m' Y, X ≠ Y → (∀ j, j ≠ X → m'.testBit j = m.testBit j) →
      jl_timing_enable_flag m' Y = jl_timing_enable_flag m Y) ∧
    ∃ s', JL_TIMING cfg block subsystem event t s = Except.ok s' ∧
      (s'.mem block).tracy_ctx.name = event ∧
      (s'.mem block).tracy_ctx.active
        = jl_timing_enable_flag s.jl_timing_enable_mask subsystem.val ∧
      ((s'.mem block).tracy_ctx.active = 1 ↔
        s.jl_timing_enable_mask.testBit subsystem.val = true) ∧
      ((s'.mem block).tracy_ctx.active = 0 ↔
        s.jl_timing_enable_mask.testBit subsystem.val = false) ∧
      s'.tracy.log = (if s.jl_timing_enable_mask.testBit subsystem.val = true
        then TracyMsg.zone_begin event :: s.tracy.log else s.tracy.log) ∧
      s'.tracy.fiber = s.tracy.fiber ∧
      ∃ s'', JL_TIMING cfg block subsystem event t { s with jl_timing_enable_mask := mask' }
          = Except.ok s'' ∧
        (s''.mem block).tracy_ctx = (s'.mem block).tracy_ctx ∧ s''.tracy = s'.tracy := by
  have hbit : ∀ m i, (jl_timing_enable_flag m i = 1 ↔ m.testBit i = true) ∧
      (jl_timing_enable_flag m i = 0 ↔ m.testBit i = false) := by
    intro m i
    rw [enable_flag_eq]
    cases m.testBit i <;> simp
  have hflag : jl_timing_enable_flag mask' subsystem.val
      = jl_timing_enable_flag s.jl_timing_enable_mask subsystem.val := by
    rw [enable_flag_eq, enable_flag_eq, hdiff subsystem.val (Ne.symm hX)]
  have hnz : (jl_timing_enable_flag s.jl_timing_enable_mask subsystem.val ≠ 0) ↔
      s.jl_timing_enable_mask.testBit subsystem.val = true := by
    rw [enable_flag_eq]
    cases s.jl_timing_enable_mask.testBit subsystem.val <;> simp
  have e1 := ctor_eq cfg block (subsystem.val : Int) t s hne hrun
  have e2 := ctor_eq cfg block (subsystem.val : Int) t
    { s with jl_timing_enable_mask := mask' } hne hrun
  have hact : ((_TRACY_CTOR cfg block event
      (jl_timing_enable_flag s.jl_timing_enable_mask subsystem.val)
      (pushed cfg block (subsystem.val : Int) t s)).mem block).tracy_ctx.active
      = jl_timing_enable_flag s.jl_timing_enable_mask subsystem.val := by
    simp [_TRACY_CTOR, htracy, TracyCZoneN, store_same]
  refine ⟨hbit, ?_, ?_⟩
  · intro m m' Y hXY hd
    rw [enable_flag_eq, enable_flag_eq, hd Y (Ne.symm hXY)]
  · refine ⟨_TRACY_CTOR cfg block event
      (jl_timing_enable_flag s.jl_timing_enable_mask subsystem.val)
      (pushed cfg block (subsystem.val : Int) t s), ?_, ?_, ?_, ?_, ?_, ?_, ?_, ?_⟩
    · simp only [JL_TIMING, e1]
      rfl
    · simp [_TRACY_CTOR, htracy, TracyCZoneN, store_same]
    · simp [_TRACY_CTOR, htracy, TracyCZoneN, store_same]
    · rw [hact]
      exact (hbit _ _).1
    · rw [hact]
      exact (hbit _ _).2
    · have hp : (pushed cfg block (subsystem.val : Int) t s).tracy = s.tracy := rfl
      by_cases hb : s.jl_timing_enable_mask.testBit subsystem.val = true
      · have := hnz.mpr hb
        simp [_TRACY_CTOR, htracy, TracyCZoneN, hp, hb, this]
      · have hz : jl_timing_enable_flag s.jl_timing_enable_mask subsystem.val = 0 := by
          by_contra hc
          exact hb (hnz.mp hc)
        simp [_TRACY_CTOR, htracy, TracyCZoneN, hp, hb, hz]
    · have hp : (pushed cfg block (subsystem.val : Int) t s).tracy = s.tracy := rfl
      simp only [_TRACY_CTOR, htracy, if_true, TracyCZoneN]
      split <;> simp [hp]
    · refine ⟨_TRACY_CTOR cfg block event (jl_timing_enable_flag mask' subsystem.val)
        (pushed cfg block (subsystem.val : Int) t { s with jl_timing_enable_mask := mask' }),
        ?_, ?_, ?_⟩
      · simp only [JL_TIMING, e2]
        rfl
      · rw [hflag]
        simp [_TRACY_CTOR, htracy, TracyCZoneN, store_same]
      · rw [hflag]
        have hp : (pushed cfg block (subsystem.val : Int) t
            { s with jl_timing_enable_mask := mask' }).tracy
            = (pushed cfg block (subsystem.val : Int) t s).tracy := rfl
        simp [_TRACY_CTOR, htracy, TracyCZoneN, hp]

/-- Witness of C8: `JL_TIMING(LOWERING, lower)` inside an open zone, with the
mask `0b101` and with the mask `0b111`, which has the bit of owner GC (1) set
in addition; the bit of LOWERING (2) is set in both. -/
theorem enable_flag_is_bit_test_witness :
    ∃ s', JL_TIMING ⟨true, true⟩ 2 jl_timing_owners.JL_TIMING_LOWERING "lower" 104
        { one_open with jl_timing_enable_mask := 5 } = Except.ok s' ∧
      (s'.mem 2).tracy_ctx.name = "lower" ∧
      (s'.mem 2).tracy_ctx.active = 1 ∧
      s'.tracy.log = [TracyMsg.zone_begin "lower"] ∧
      ∃ s'', JL_TIMING ⟨true, true⟩ 2 jl_timing_owners.JL_TIMING_LOWERING "lower" 104
          { one_open with jl_timing_enable_mask := 5 ||| 1 <<< 1 } = Except.ok s'' ∧
        (s''.mem 2).tracy_ctx = (s'.mem 2).tracy_ctx ∧ s''.tracy = s'.tracy :=
  (enable_flag_is_bit_test ⟨true, true⟩ 2 jl_timing_owners.JL_TIMING_LOWERING "lower" 104
    { one_open with jl_timing_enable_mask := 5 } (5 ||| 1 <<< 1) 1 rfl (by decide)
    (fun _ _ => by decide) (by decide)
    (fun j hj => by
      have h5 : ({ one_open with jl_timing_enable_mask := 5 } : State).jl_timing_enable_mask
          = 5 := rfl
      rw [h5, Nat.testBit_lor, Nat.one_shiftLeft, Nat.testBit_two_pow]
      simp [Ne.symm hj])).2.2.elim
    fun s' h => ⟨s', h.1, h.2.1, h.2.2.1.trans (by decide),
      h.2.2.2.2.2.1.trans (by decide), h.2.2.2.2.2.2.2⟩

/-- C9: the counts back-end does not depend on the enable mask.  Two runs of
the same zone enters and exits with the same clock readings, started with the
same table, records and stack but with any masks, and with any writes to the
mask in between, fail the same assertion or end with the same
`jl_timing_counts`, the same counts sub-state and link of every record and
the same stack pointer; and the destructor does not read the mask at all. -/
theorem counts_backend_ignores_mask (cfg : Build) (ops1 ops2 : List Op) (s1 s2 : State)
    (hops : ops1.filter Op.isZone = ops2.filter Op.isZone)
    (hs : countsView s1 = countsView s2) :
    (runOps cfg ops1 s1).map countsView = (runOps cfg ops2 s2).map countsView ∧
    (∀ block owner t mask,
      _jl_timing_block_ctor cfg block owner t { s1 with jl_timing_enable_mask := mask } =
        (_jl_timing_block_ctor cfg block owner t s1).map
          fun s => { s with jl_timing_enable_mask := mask }) ∧
    ∀ block t mask,
      _jl_timing_block_destroy cfg block t { s1 with jl_timing_enable_mask := mask } =
        (_jl_timing_block_destroy cfg block t s1).map
          fun s => { s with jl_timing_enable_mask := mask } := by
  refine ⟨?_, ?_, ?_⟩
  · rw [runOps_view cfg ops1 s1 s1 rfl, runOps_view cfg ops2 s2 s1 hs.symm, hops]
  · intro block owner t mask
    unfold _jl_timing_block_ctor
    simp only [ctor_start_eq, store_same, store_store]
    split
    · cases _jl_timing_counts_stop cfg _ t with
      | error e => rfl
      | ok p => rfl
    · rfl
  · intro block t mask
    unfold _jl_timing_block_destroy
    simp only [store_same]
    cases _jl_timing_counts_stop cfg (s1.mem block).counts_ctx t with
    | error e => rfl
    | ok c =>
      simp only
      split
      · rfl
      · split
        · cases _jl_timing_counts_start cfg _ t with
          | error e => rfl
          | ok p => rfl
        · rfl

/-- Witness of C9: the two-level scenario with all owners disabled, and with
all owners enabled at the start and LOWERING disabled while its zone is open. -/
theorem counts_backend_ignores_mask_witness :
    (runOps ⟨true, true⟩
        [Op.zone 1 jl_timing_owners.JL_TIMING_PARSING "parse" 100,
         Op.zone 2 jl_timing_owners.JL_TIMING_LOWERING "lower" 100,
         Op.destroy 2 105, Op.destroy 1 108] idle).map countsView =
      (runOps ⟨true, true⟩
        [Op.zone 1 jl_timing_owners.JL_TIMING_PARSING "parse" 100,
         Op.zone 2 jl_timing_owners.JL_TIMING_LOWERING "lower" 100,
         Op.set_mask (2 ^ 24 - 1 - 4),
         Op.destroy 2 105, Op.destroy 1 108]
        { idle with jl_timing_enable_mask := 2 ^ 24 - 1 }).map countsView ∧
    (∀ block owner t mask,
      _jl_timing_block_ctor ⟨true, true⟩ block owner t { idle with jl_timing_enable_mask := mask } =
        (_jl_timing_block_ctor ⟨true, true⟩ block owner t idle).map
          fun s => { s with jl_timing_enable_mask := mask }) ∧
    ∀ block t mask,
      _jl_timing_block_destroy ⟨true, true⟩ block t { idle with jl_timing_enable_mask := mask } =
        (_jl_timing_block_destroy ⟨true, true⟩ block t idle).map
          fun s => { s with jl_timing_enable_mask := mask } :=
  counts_backend_ignores_mask ⟨true, true⟩ _ _ idle
    { idle with jl_timing_enable_mask := 2 ^ 24 - 1 } (by decide) rfl

/-- C10: `jl_timing_set_enable`.  For a name that is entry `i` of
`jl_timing_names` the call returns 0, bit `i` of the new mask is set exactly
when `enabled` is non-zero and every other bit is as before; so after
`jl_timing_set_enable("GC", 1)` the bit test for the owner GC gives 1.  For a
name that is no entry the call returns -1 and the mask is as before. -/
theorem set_enable_by_name (name : String) (enabled mask : Nat) (hmask : mask < 2 ^ 64) :
    (∀ i, jl_timing_names[i]? = some name →
      (jl_timing_set_enable name enabled mask).1 = 0 ∧
      (jl_timing_set_enable name enabled mask).2.testBit i = decide (enabled ≠ 0) ∧
      ∀ j, j ≠ i →
        (jl_timing_set_enable name enabled mask).2.testBit j = mask.testBit j) ∧
    (name ∉ jl_timing_names → jl_timing_set_enable name enabled mask = (-1, mask)) ∧
    jl_timing_enable_flag (jl_timing_set_enable "GC" 1 mask).2
      jl_timing_owners.JL_TIMING_GC.val = 1 := by
  have hhigh : ∀ j, 64 ≤ j → mask.testBit j = false := fun j hj =>
    Nat.testBit_lt_two_pow (lt_of_lt_of_le hmask (Nat.pow_le_pow_right (by decide) hj))
  refine ⟨?_, ?_, ?_⟩
  · intro i hi
    obtain ⟨hi24, heq⟩ := set_enable_at name enabled mask i hi
    rw [heq]
    by_cases he : enabled = 0
    · simp only [he, ne_eq, not_true_eq_false, if_false, decide_False, Nat.testBit_land]
      refine ⟨trivial, ?_, ?_⟩
      · rw [clear_mask_bits i hi24 i (by omega)]; simp
      · intro j hj
        by_cases hj64 : j < 64
        · rw [clear_mask_bits i hi24 j hj64]; simp [hj]
        · rw [hhigh j (by omega)]; simp
    · simp only [he, ne_eq, not_false_eq_true, if_true, decide_True, Nat.testBit_lor,
        Nat.one_shiftLeft, Nat.testBit_two_pow]
      refine ⟨trivial, by simp, ?_⟩
      intro j hj
      simp [Ne.symm hj]
  · intro hn
    unfold jl_timing_set_enable
    have : ¬ List.indexOf name jl_timing_names < jl_timing_names.length := by
      rw [List.indexOf_lt_length]; exact hn
    simp only [this, if_false]
  · have h1 : jl_timing_names[1]? = some "GC" := by decide
    obtain ⟨_, heq⟩ := set_enable_at "GC" 1 mask 1 h1
    rw [heq, enable_flag_eq]
    have h2 : Nat.testBit 2 1 = true := by decide
    simp [jl_timing_owners.val, Nat.testBit_lor, h2]

/-- Witness of C10: the name `GC` and the empty mask. -/
theorem set_enable_by_name_witness :
    (∀ i, jl_timing_names[i]? = some "GC" →
      (jl_timing_set_enable "GC" 1 0).1 = 0 ∧
      (jl_timing_set_enable "GC" 1 0).2.testBit i = decide (1 ≠ 0) ∧
      ∀ j, j ≠ i → (jl_timing_set_enable "GC" 1 0).2.testBit j = Nat.testBit 0 j) ∧
    ("GC" ∉ jl_timing_names → jl_timing_set_enable "GC" 1 0 = (-1, 0)) ∧
    jl_timing_enable_flag (jl_timing_set_enable "GC" 1 0).2
      jl_timing_owners.JL_TIMING_GC.val = 1 :=
  set_enable_by_name "GC" 1 0 (by decide)

/-- C12: in every sequence of zone enters and exits that starts from the
empty stack, in which every enter brings a record of its own and every exit is
for the record on top of the stack, no assertion fails: the run completes, so
neither `assert(block->running)`, nor `assert(!block->running)`, nor
`assert(*pcur == block)` has failed. -/
theorem assertions_hold_under_stack_discipline (cfg : Build) (s : State) (es : List Event)
    (live : List Nat) (hs : s.timing_stack = 0) (hn : nesting [] es = some live) :
    (∃ s', run cfg es s = Except.ok s') ∧
    run cfg es s ≠ Except.error Fault.assert_running ∧
    run cfg es s ≠ Except.error Fault.assert_not_running ∧
    run cfg es s ≠ Except.error Fault.assert_top := by
  obtain ⟨s', hrun, _⟩ := run_of_inv cfg es s [] live (inv_empty cfg s hs) hn
  rw [hrun]
  exact ⟨⟨s', rfl⟩, by simp, by simp, by simp⟩

/-- Witness of C12: three zones, two of them nested, in a debug build. -/
theorem assertions_hold_under_stack_discipline_witness :
    (∃ s', run ⟨true, true⟩
      [Event.enter 1 3 100, Event.enter 2 2 104, Event.exit 2 109, Event.enter 2 4 110,
       Event.exit 2 111, Event.exit 1 112] idle = Except.ok s') ∧
    run ⟨true, true⟩
      [Event.enter 1 3 100, Event.enter 2 2 104, Event.exit 2 109, Event.enter 2 4 110,
       Event.exit 2 111, Event.exit 1 112] idle ≠ Except.error Fault.assert_running ∧
    run ⟨true, true⟩
      [Event.enter 1 3 100, Event.enter 2 2 104, Event.exit 2 109, Event.enter 2 4 110,
       Event.exit 2 111, Event.exit 1 112] idle ≠ Except.error Fault.assert_not_running ∧
    run ⟨true, true⟩
      [Event.enter 1 3 100, Event.enter 2 2 104, Event.exit 2 109, Event.enter 2 4 110,
       Event.exit 2 111, Event.exit 1 112] idle ≠ Except.error Fault.assert_top :=
  assertions_hold_under_stack_discipline ⟨true, true⟩ idle
    [Event.enter 1 3 100, Event.enter 2 2 104, Event.exit 2 109, Event.enter 2 4 110,
     Event.exit 2 111, Event.exit 1 112] [] rfl (by decide)

/-- C13: conservation of time.  One outermost zone is entered at the reading
`t_start` on the empty stack and left at `t_end`, and between the two any
properly nested sequence of child zones, of any owners of the table, is
entered and left.  Then the sum over all owners of the increases of
`jl_timing_counts`, modulo `2 ^ 64`, is `t_end - t_start` modulo `2 ^ 64`:
every unit of elapsed time is attributed to exactly one owner. -/
theorem time_is_conserved (cfg : Build) (s : State) (a : Nat) (owner : Int)
    (t_start t_end : Nat) (mid : List Event)
    (hs : s.timing_stack = 0) (ha : a ≠ 0)
    (hmid : nesting [] mid = some []) (hfresh : ∀ e ∈ mid, e.block ≠ a)
    (hown : ownersInTable (Event.enter a owner t_start :: mid) = true) :
    ∃ s', run cfg (Event.enter a owner t_start :: (mid ++ [Event.exit a t_end])) s
        = Except.ok s' ∧
      total_increase s s' = sub64 t_end t_start := by
  have hall := ownersInTable_spec _ hown
  have howner := hall _ (List.mem_cons_self _ _) a owner t_start rfl
  have hrange : ∀ e ∈ mid, ∀ b o t, e = Event.enter b o t →
      0 ≤ o ∧ o < (JL_TIMING_LAST : Int) := fun e he =>
    hall e (List.mem_cons_of_mem _ he)
  have i0 := inv_empty cfg s hs
  have hnot : a ∉ ([] : List Nat) := by simp
  have hne := inv_top_ne cfg s [] a i0 ha hnot
  have e1 := ctor_of_inv cfg s [] a owner t_start i0 ha hnot
  have i1 := inv_pushed cfg s [] a owner t_start i0 ha hnot
  have hblk := pushed_mem_block cfg a owner t_start s hne
  obtain ⟨s2, last', hrun2, i2, hlast2, hown2, hsum2⟩ :=
    run_children cfg a mid (pushed cfg a owner t_start s) [] [] t_start i1 hmid hfresh
      (fun top rest h => by
        have : a = top := (List.cons.inj h).1
        subst this
        rw [hblk]
        rfl)
      (fun x hx => by
        have : x = a := by simpa using hx
        subst this
        rw [hblk]
        exact howner)
      hrange
  rw [List.nil_append] at i2 hlast2 hown2 hsum2
  have hoa := hown2 a (List.mem_singleton.mpr rfl)
  have e3 := destroy_of_inv cfg s2 [] a t_end i2
  have hstep3 := popped_held cfg s2 [] a t_end i2 hoa.1 hoa.2
  rw [hlast2 a [] rfl] at hstep3
  have hheld1 : heldSum (pushed cfg a owner t_start s).mem [a] = 0 := by
    rw [heldSum_cons, hblk]
    simp [created, heldSum]
  have hcs : (pushed cfg a owner t_start s).jl_timing_counts = s.jl_timing_counts := rfl
  have hnil : heldSum (popped cfg a t_end s2).mem [] = 0 := by simp [heldSum]
  rw [hheld1, hcs] at hsum2
  rw [hnil] at hstep3
  refine ⟨popped cfg a t_end s2, ?_, ?_⟩
  · have hmidrun : run cfg (mid ++ [Event.exit a t_end]) (pushed cfg a owner t_start s)
        = Except.ok (popped cfg a t_end s2) := by
      rw [run_append cfg mid [Event.exit a t_end] _ s2 hrun2]
      simp only [run, step, e3]
    simp only [run, step, e1, hmidrun]
  · have hinc := sum_increase s.jl_timing_counts (popped cfg a t_end s2).jl_timing_counts
      JL_TIMING_LAST
    have hlt : sub64 t_end t_start < 2 ^ 64 := by
      unfold sub64
      exact Nat.mod_lt _ (by decide)
    have htel : (sub64 last' t_start + sub64 t_end last') % 2 ^ 64 = sub64 t_end t_start := by
      unfold sub64
      omega
    unfold total_increase increase
    unfold tableSum at hsum2 hstep3
    omega

/-- Witness of C13: PARSING (3) is open from 100 to 112, with LOWERING (2)
from 104 to 109 and INFERENCE (4) from 110 to 111 inside it. -/
theorem time_is_conserved_witness :
    ∃ s', run ⟨true, true⟩ (Event.enter 1 3 100 ::
        ([Event.enter 2 2 104, Event.exit 2 109, Event.enter 2 4 110, Event.exit 2 111]
          ++ [Event.exit 1 112])) idle = Except.ok s' ∧
      total_increase idle s' = sub64 112 100 :=
  time_is_conserved ⟨true, true⟩ idle 1 3 100 112
    [Event.enter 2 2 104, Event.exit 2 109, Event.enter 2 4 110, Event.exit 2 111]
    rfl (by decide) (by decide) (by decide) (by decide)

/-- C14: the table is written only at destruction.  Whenever
`_jl_timing_block_ctor` returns, every entry of `jl_timing_counts` is as
before the call.  Whenever `_jl_timing_block_destroy` returns for `block` at
reading `t`, the entry of `block.owner` is the old entry plus the final total
`block.total + (t - block.t0)`, as `uint64_t` additions, and the entry of
every other owner is as before.  Both calls return in every release build,
and in a debug build as soon as the assertions on the records involved hold. -/
theorem counts_written_only_at_destruction (cfg : Build) (entered : Nat) (owner : Int)
    (t_enter : Nat) (block t : Nat) (s : State) :
    (∀ s1, _jl_timing_block_ctor cfg entered owner t_enter s = Except.ok s1 →
      ∀ o, s1.jl_timing_counts o = s.jl_timing_counts o) ∧
    (∀ s2, _jl_timing_block_destroy cfg block t s = Except.ok s2 →
      s2.jl_timing_counts (s.mem block).counts_ctx.owner =
        add64 (s.jl_timing_counts (s.mem block).counts_ctx.owner)
          (add64 (s.mem block).counts_ctx.total (sub64 t (s.mem block).counts_ctx.t0)) ∧
      ∀ o, o ≠ (s.mem block).counts_ctx.owner →
        s2.jl_timing_counts o = s.jl_timing_counts o) ∧
    (s.timing_stack ≠ entered →
      (cfg.JL_DEBUG_BUILD = true → s.timing_stack ≠ 0 →
        (s.mem s.timing_stack).counts_ctx.running ≠ 0) →
      ∃ s1, _jl_timing_block_ctor cfg entered owner t_enter s = Except.ok s1) ∧
    ((s.mem block).prev ≠ block →
      (cfg.JL_DEBUG_BUILD = true → (s.mem block).counts_ctx.running ≠ 0) →
      (cfg.JL_DEBUG_BUILD = true → s.timing_stack = block) →
      (cfg.JL_DEBUG_BUILD = true → (s.mem block).prev ≠ 0 →
        (s.mem (s.mem block).prev).counts_ctx.running = 0) →
      ∃ s2, _jl_timing_block_destroy cfg block t s = Except.ok s2) := by
  refine ⟨?_, ?_, ?_, ?_⟩
  · intro s1 hc o
    rw [ctor_counts cfg entered owner t_enter s s1 hc]
  · intro s2 hd
    refine ⟨?_, ?_⟩
    · rw [destroy_counts cfg block t s s2 hd, store_same]
    · intro o ho
      rw [destroy_counts cfg block t s s2 hd, store_ne _ _ _ _ ho]
  · intro hne hrun
    exact ⟨_, ctor_eq cfg entered owner t_enter s hne hrun⟩
  · intro hne hrun htop hprev
    exact ⟨_, destroy_eq cfg block t s hne hrun htop hprev⟩

/-- Witness of C14: in a debug build, the outermost enter of the record 1 from
the idle state returns and leaves the table as it is, and the exit of that
record at 105 returns and puts 5 into the entry of owner 3 only. -/
theorem counts_written_only_at_destruction_witness :
    (∃ s1, _jl_timing_block_ctor ⟨true, true⟩ 1 3 100 idle = Except.ok s1 ∧
      ∀ o, s1.jl_timing_counts o = idle.jl_timing_counts o) ∧
    ∃ s2, _jl_timing_block_destroy ⟨true, true⟩ 1 105 one_open = Except.ok s2 ∧
      s2.jl_timing_counts (one_open.mem 1).counts_ctx.owner =
        add64 (one_open.jl_timing_counts (one_open.mem 1).counts_ctx.owner)
          (add64 (one_open.mem 1).counts_ctx.total
            (sub64 105 (one_open.mem 1).counts_ctx.t0)) ∧
      (one_open.mem 1).counts_ctx.owner = 3 ∧
      add64 (one_open.jl_timing_counts (one_open.mem 1).counts_ctx.owner)
          (add64 (one_open.mem 1).counts_ctx.total
            (sub64 105 (one_open.mem 1).counts_ctx.t0)) = 5 ∧
      ∀ o, o ≠ (one_open.mem 1).counts_ctx.owner →
        s2.jl_timing_counts o = one_open.jl_timing_counts o :=
  ⟨((counts_written_only_at_destruction ⟨true, true⟩ 1 3 100 1 105 idle).2.2.1
      (by decide) (fun _ h => absurd rfl h)).elim
      fun s1 h1 => ⟨s1, h1,
        (counts_written_only_at_destruction ⟨true, true⟩ 1 3 100 1 105 idle).1 s1 h1⟩,
   ((counts_written_only_at_destruction ⟨true, true⟩ 2 2 104 1 105 one_open).2.2.2
      (by decide) (fun _ => by decide) (fun _ => rfl) (fun _ h => absurd rfl h)).elim
      fun s2 h2 => ⟨s2, h2,
        ((counts_written_only_at_destruction ⟨true, true⟩ 2 2 104 1 105 one_open).2.1 s2 h2).1,
        rfl, rfl,
        ((counts_written_only_at_destruction ⟨true, true⟩ 2 2 104 1 105 one_open).2.1 s2 h2).2⟩⟩

/-- C15: the postcondition of a zone enter.  After
`_jl_timing_block_ctor(block, owner)` at reading `t`, with `parent` the
previous stack top (possibly `NULL`) and `block` a record other than `parent`,
the stack top is `block`, `block.prev` is `parent`, `block.owner` is `owner`,
`block.total` is 0, `block.t0` is `t` and `block` runs; when `parent` is not
`NULL` its total has grown by `t - parent.t0`, it is paused and nothing else of
it has changed; no other record is modified. -/
theorem enter_zone_postcondition (cfg : Build) (block : Nat) (owner : Int) (t : Nat) (s : State)
    (hne : s.timing_stack ≠ block)
    (hrun : cfg.JL_DEBUG_BUILD = true → s.timing_stack ≠ 0 →
      (s.mem s.timing_stack).counts_ctx.running ≠ 0) :
    ∃ s', _jl_timing_block_ctor cfg block owner t s = Except.ok s' ∧
      s'.timing_stack = block ∧
      (s'.mem block).prev = s.timing_stack ∧
      (s'.mem block).counts_ctx.owner = owner ∧
      (s'.mem block).counts_ctx.total = 0 ∧
      (s'.mem block).counts_ctx.t0 = t ∧
      (cfg.JL_DEBUG_BUILD = true → (s'.mem block).counts_ctx.running = 1) ∧
      (s.timing_stack ≠ 0 →
        (s'.mem s.timing_stack).counts_ctx.total =
          add64 (s.mem s.timing_stack).counts_ctx.total
            (sub64 t (s.mem s.timing_stack).counts_ctx.t0) ∧
        (cfg.JL_DEBUG_BUILD = true → (s'.mem s.timing_stack).counts_ctx.running = 0) ∧
        (s'.mem s.timing_stack).counts_ctx.t0 = (s.mem s.timing_stack).counts_ctx.t0 ∧
        (s'.mem s.timing_stack).counts_ctx.owner = (s.mem s.timing_stack).counts_ctx.owner ∧
        (s'.mem s.timing_stack).prev = (s.mem s.timing_stack).prev) ∧
      ∀ a, a ≠ block → a ≠ s.timing_stack → s'.mem a = s.mem a := by
  refine ⟨pushed cfg block owner t s, ctor_eq cfg block owner t s hne hrun, rfl, ?_, ?_, ?_, ?_,
    ?_, ?_, ?_⟩
  · rw [pushed_mem_block cfg block owner t s hne]
  · rw [pushed_mem_block cfg block owner t s hne]; rfl
  · rw [pushed_mem_block cfg block owner t s hne]; rfl
  · rw [pushed_mem_block cfg block owner t s hne]; rfl
  · intro hd
    rw [pushed_mem_block cfg block owner t s hne]
    simp [created, hd]
  · intro h0
    rw [pushed_mem_top cfg block owner t s h0]
    refine ⟨rfl, ?_, rfl, rfl, rfl⟩
    intro hd
    simp [stopped, hd]
  · intro a hb ht
    exact pushed_mem_other cfg block owner t s a hb ht

/-- Witness of C15: the record 2 is entered at 104 while the record 1 is on
top, in a debug build. -/
theorem enter_zone_postcondition_witness :
    ∃ s', _jl_timing_block_ctor ⟨true, true⟩ 2 2 104 one_open
        = Except.ok s' ∧
      s'.timing_stack = 2 ∧
      (s'.mem 2).prev = one_open.timing_stack ∧
      (s'.mem 2).counts_ctx.owner = 2 ∧
      (s'.mem 2).counts_ctx.total = 0 ∧
      (s'.mem 2).counts_ctx.t0 = 104 ∧
      ((⟨true, true⟩ : Build).JL_DEBUG_BUILD = true → (s'.mem 2).counts_ctx.running = 1) ∧
      (one_open.timing_stack ≠ 0 →
        (s'.mem one_open.timing_stack).counts_ctx.total =
          add64
            (one_open.mem one_open.timing_stack).counts_ctx.total
            (sub64 104
              (one_open.mem one_open.timing_stack).counts_ctx.t0) ∧
        ((⟨true, true⟩ : Build).JL_DEBUG_BUILD = true →
          (s'.mem one_open.timing_stack).counts_ctx.running = 0) ∧
        (s'.mem one_open.timing_stack).counts_ctx.t0 =
          (one_open.mem one_open.timing_stack).counts_ctx.t0 ∧
        (s'.mem one_open.timing_stack).counts_ctx.owner =
          (one_open.mem one_open.timing_stack).counts_ctx.owner ∧
        (s'.mem one_open.timing_stack).prev =
          (one_open.mem one_open.timing_stack).prev) ∧
      ∀ a, a ≠ 2 → a ≠ one_open.timing_stack →
        s'.mem a = one_open.mem a :=
  enter_zone_postcondition ⟨true, true⟩ 2 2 104 one_open
    (by decide) (fun _ _ => by decide)

/-- C16: a zone exit pops and resumes the parent.  When `block` is the stack
top (and not its own `prev`), `_jl_timing_block_destroy(block)` at reading `t`
sets the stack top to `block.prev`; when `block.prev` is not `NULL` its `t0`
becomes `t`, it runs, and its total and everything else of it are as before
(the time of the child is not added to the parent); no record other than
`block` and `block.prev` is modified. -/
theorem exit_zone_resumes_parent (cfg : Build) (block : Nat) (t : Nat) (s : State)
    (htop : s.timing_stack = block)
    (hne : (s.mem block).prev ≠ block)
    (hrun : cfg.JL_DEBUG_BUILD = true → (s.mem block).counts_ctx.running ≠ 0)
    (hprev : cfg.JL_DEBUG_BUILD = true → (s.mem block).prev ≠ 0 →
      (s.mem (s.mem block).prev).counts_ctx.running = 0) :
    ∃ s', _jl_timing_block_destroy cfg block t s = Except.ok s' ∧
      s'.timing_stack = (s.mem block).prev ∧
      ((s.mem block).prev ≠ 0 →
        (s'.mem (s.mem block).prev).counts_ctx.t0 = t ∧
        (cfg.JL_DEBUG_BUILD = true → (s'.mem (s.mem block).prev).counts_ctx.running = 1) ∧
        (s'.mem (s.mem block).prev).counts_ctx.total
          = (s.mem (s.mem block).prev).counts_ctx.total ∧
        (s'.mem (s.mem block).prev).counts_ctx.owner
          = (s.mem (s.mem block).prev).counts_ctx.owner ∧
        (s'.mem (s.mem block).prev).prev = (s.mem (s.mem block).prev).prev) ∧
      ∀ a, a ≠ block → a ≠ (s.mem block).prev → s'.mem a = s.mem a := by
  refine ⟨popped cfg block t s,
    destroy_eq cfg block t s hne hrun (fun _ => htop) hprev, rfl, ?_, ?_⟩
  · intro h0
    rw [popped_mem_prev cfg block t s h0]
    refine ⟨rfl, ?_, rfl, rfl, rfl⟩
    intro hd
    simp [started, hd]
  · intro a hb hp
    exact popped_mem_other cfg block t s a hb hp

/-- Witness of C16: the record 2, entered inside the record 1, is left at 109
in a debug build. -/
theorem exit_zone_resumes_parent_witness :
    ∃ s', _jl_timing_block_destroy ⟨true, true⟩ 2 109
        two_open = Except.ok s' ∧
      s'.timing_stack = (two_open.mem 2).prev ∧
      ((two_open.mem 2).prev ≠ 0 →
        (s'.mem (two_open.mem 2).prev).counts_ctx.t0 = 109 ∧
        ((⟨true, true⟩ : Build).JL_DEBUG_BUILD = true →
          (s'.mem (two_open.mem 2).prev).counts_ctx.running = 1) ∧
        (s'.mem (two_open.mem 2).prev).counts_ctx.total
          = (two_open.mem (two_open.mem 2).prev).counts_ctx.total ∧
        (s'.mem (two_open.mem 2).prev).counts_ctx.owner
          = (two_open.mem (two_open.mem 2).prev).counts_ctx.owner ∧
        (s'.mem (two_open.mem 2).prev).prev
          = (two_open.mem (two_open.mem 2).prev).prev) ∧
      ∀ a, a ≠ 2 →
        a ≠ (two_open.mem 2).prev →
        s'.mem a = two_open.mem a :=
  exit_zone_resumes_parent ⟨true, true⟩ 2 109
    two_open
    rfl (by decide) (fun _ => by decide) (fun _ _ => by decide)

/-- C17: the owner registry is dense and fits the mask and the table.  The
enumeration numbers the 24 owners of `JL_TIMING_OWNERS` 0, 1, ..., 23 in the
order of the list (ROOT = 0, GC = 1, LOWERING = 2, PARSING = 3, INFERENCE = 4,
..., INIT_MODULE = 23), pairwise distinct, and `JL_TIMING_LAST` is 24; so the
index of every owner is below 64, the width of the mask, and below
`JL_TIMING_LAST`, the length of `jl_timing_counts`, and the entry that
`_jl_timing_counts_destroy` writes for a record constructed with an owner of
the enumeration is inside the table. -/
theorem owner_registry_is_dense :
    JL_TIMING_OWNERS.map jl_timing_owners.val = List.range 24 ∧
    (∀ o : jl_timing_owners, o ∈ JL_TIMING_OWNERS) ∧
    (∀ o : jl_timing_owners, o.val = o.toCtorIdx) ∧
    Function.Injective jl_timing_owners.val ∧
    jl_timing_owners.JL_TIMING_ROOT.val = 0 ∧
    jl_timing_owners.JL_TIMING_GC.val = 1 ∧
    jl_timing_owners.JL_TIMING_LOWERING.val = 2 ∧
    jl_timing_owners.JL_TIMING_PARSING.val = 3 ∧
    jl_timing_owners.JL_TIMING_INFERENCE.val = 4 ∧
    jl_timing_owners.JL_TIMING_INIT_MODULE.val = 23 ∧
    JL_TIMING_LAST = 24 ∧
    JL_TIMING_OWNERS.length = JL_TIMING_LAST ∧
    (∀ o : jl_timing_owners, o.val < 64 ∧ o.val < JL_TIMING_LAST) ∧
    ∀ (cfg : Build) (c : jl_timing_counts_t) (o : jl_timing_owners),
      (_jl_timing_counts_ctor cfg c (o.val : Int)).owner = (o.val : Int) ∧
      0 ≤ (_jl_timing_counts_ctor cfg c (o.val : Int)).owner ∧
      (_jl_timing_counts_ctor cfg c (o.val : Int)).owner < (JL_TIMING_LAST : Int) := by
  have hlt : ∀ o : jl_timing_owners, o.val < 24 := by
    intro o; cases o <;> decide
  refine ⟨rfl, ?_, ?_, ?_, rfl, rfl, rfl, rfl, rfl, rfl, rfl, rfl, ?_, ?_⟩
  · intro o; cases o <;> decide
  · intro o; cases o <;> rfl
  · intro a b h
    cases a <;> cases b <;> first | rfl | exact absurd h (by decide)
  · intro o
    have := hlt o
    unfold JL_TIMING_LAST
    omega
  · intro cfg c o
    have howner : (_jl_timing_counts_ctor cfg c (o.val : Int)).owner = (o.val : Int) := by
      unfold _jl_timing_counts_ctor
      cases cfg.JL_DEBUG_BUILD <;> rfl
    have := hlt o
    rw [howner]
    unfold JL_TIMING_LAST
    omega

/-- C18: wrap-around arithmetic.  A zone without children, entered at the
reading `t1` and left at `t2` (`uint64_t` readings), turns the entry of its owner
into `(old + ((t2 - t1) mod 2 ^ 64)) mod 2 ^ 64` and leaves the other entries.
When the true elapsed time `d` is below `2 ^ 64` and the counter has wrapped,
`t2 = (t1 + d) mod 2 ^ 64`, the amount added is `d`; when the reading has gone
back, `t2 < t1`, the amount added is `2 ^ 64 - (t1 - t2)`. -/
theorem leaf_zone_wraps_around (cfg : Build) (s : State) (live : List Nat) (block : Nat)
    (owner : Int) (t1 t2 : Nat) (hinv : Inv cfg s live) (hb0 : block ≠ 0)
    (hfresh : block ∉ live) (h1 : t1 < 2 ^ 64) :
    ∃ s', run cfg [Event.enter block owner t1, Event.exit block t2] s = Except.ok s' ∧
      s'.jl_timing_counts owner = (s.jl_timing_counts owner + sub64 t2 t1) % 2 ^ 64 ∧
      (∀ o, o ≠ owner → s'.jl_timing_counts o = s.jl_timing_counts o) ∧
      (sub64 t2 t1 : Int) = ((t2 : Int) - (t1 : Int)) % 2 ^ 64 ∧
      (∀ d, d < 2 ^ 64 → t2 = (t1 + d) % 2 ^ 64 → sub64 t2 t1 = d) ∧
      (t2 < t1 → sub64 t2 t1 = 2 ^ 64 - (t1 - t2)) := by
  have hne := inv_top_ne cfg s live block hinv hb0 hfresh
  have e1 := ctor_of_inv cfg s live block owner t1 hinv hb0 hfresh
  have i1 := inv_pushed cfg s live block owner t1 hinv hb0 hfresh
  have e2 := destroy_of_inv cfg _ live block t2 i1
  have hblk := pushed_mem_block cfg block owner t1 s hne
  have hcounts : (popped cfg block t2 (pushed cfg block owner t1 s)).jl_timing_counts =
      store s.jl_timing_counts owner (add64 (s.jl_timing_counts owner) (sub64 t2 t1)) := by
    have hz : add64 0 (sub64 t2 t1) = sub64 t2 t1 := by unfold add64 sub64; omega
    simp only [popped, hblk, stopped, created, hz]
    rfl
  refine ⟨popped cfg block t2 (pushed cfg block owner t1 s), ?_, ?_, ?_, ?_, ?_, ?_⟩
  · simp only [run, step, e1, e2]
  · rw [hcounts, store_same]; rfl
  · intro o ho
    rw [hcounts, store_ne _ _ _ _ ho]
  · exact sub64_eq_emod t2 t1 h1
  · intro d hd ht
    subst ht
    unfold sub64
    omega
  · intro hlt
    unfold sub64
    omega

/-- Witness of C18: a zone entered at `2 ^ 64 - 2` and left at `3`, after the
counter has wrapped. -/
theorem leaf_zone_wraps_around_witness :
    ∃ s', run ⟨true, true⟩ [Event.enter 1 3 (2 ^ 64 - 2), Event.exit 1 3] idle = Except.ok s' ∧
      s'.jl_timing_counts 3 = (idle.jl_timing_counts 3 + sub64 3 (2 ^ 64 - 2)) % 2 ^ 64 ∧
      (∀ o, o ≠ 3 → s'.jl_timing_counts o = idle.jl_timing_counts o) ∧
      (sub64 3 (2 ^ 64 - 2) : Int) = ((3 : Nat) - ((2 ^ 64 - 2 : Nat) : Int)) % 2 ^ 64 ∧
      (∀ d, d < 2 ^ 64 → 3 = (2 ^ 64 - 2 + d) % 2 ^ 64 → sub64 3 (2 ^ 64 - 2) = d) ∧
      (3 < 2 ^ 64 - 2 → sub64 3 (2 ^ 64 - 2) = 2 ^ 64 - (2 ^ 64 - 2 - 3)) :=
  leaf_zone_wraps_around ⟨true, true⟩ idle [] 1 3 (2 ^ 64 - 2) 3
    (inv_empty ⟨true, true⟩ idle rfl) (by decide) (by decide) (by decide)

end Timing
